import Mathlib

/-!
Verification development for the PhotoTag catalog application.

Each section shallowly embeds one part of the Rust source:

* difference hash (`compute_dhash`, src/jobs.rs)
* embedding serialization and normalization (src/embedding.rs, src/jobs.rs)
* the no-model heuristic tagger (src/tagging.rs)
* the catalog store operations (src/db.rs over the schema of src/schema.rs)
* the duplicate-grouping query (modelled from the specification; the
  implementation of `db::find_duplicates` is not part of the sources, only its
  caller in src/main.rs is)
* the import progress tracker and per-file cancellation (src/jobs.rs)

Machine integers are modelled as `Nat`/`Int` with explicit reductions modulo
2 ^ 64 where the source works on `u64`; SQLite `REAL` columns and `f32`/`f64`
values that are only stored, compared or multiplied by constants are modelled
as rationals; the one place real square roots occur (embedding normalization)
is modelled over the reals.
-/

namespace PhotoTag

/-! ### Difference hash (src/jobs.rs, `compute_dhash`)

The source decodes the preview, converts to 8-bit luma and resizes to 9×8;
those steps are external image-library calls, so the embedding starts from the
resulting luma grid `L`, where `L x y` is the value at column `x` (0..=8) and
row `y` (0..=7).  The hash loop is, for `y` in 0..8 and `x` in 0..8:
`hash = (hash << 1) | ((L x y > L (x+1) y) as u64)` on a `u64`. -/

/-- Luma comparison bit of `compute_dhash` at column `x`, row `y`:
`left > right` where `left = L(x, y)` and `right = L(x+1, y)`. -/
def dhashBit (L : ℕ → ℕ → ℕ) (x y : ℕ) : Bool :=
  decide (L x y > L (x + 1) y)

/-- One iteration of the `compute_dhash` accumulator:
`hash = (hash << 1) | (bit as u64)` on `u64`. -/
def dhashStep (hash : ℕ) (bit : Bool) : ℕ :=
  ((hash <<< 1) % 2 ^ 64) ||| bit.toNat

/-- The comparison bits of `compute_dhash` in loop order
(`y` outer loop over 0..8, `x` inner loop over 0..8). -/
def dhashBits (L : ℕ → ℕ → ℕ) : List Bool :=
  (List.range 8).flatMap (fun y => (List.range 8).map (fun x => dhashBit L x y))

/-- The 64-bit difference hash of a 9×8 luma grid (src/jobs.rs,
`compute_dhash`): fold the accumulator step over all 64 comparison bits,
starting from 0. -/
def compute_dhash (L : ℕ → ℕ → ℕ) : ℕ :=
  (dhashBits L).foldl dhashStep 0

/-- Hamming distance restricted to the low 64 bits, the distance used on
stored dHash values. -/
def hamming64 (a b : ℕ) : ℕ :=
  (List.range 64).countP (fun i => a.testBit i != b.testBit i)

/-- Mathematical value of a big-endian bit list (most significant bit
first), the overflow-free counterpart of the hash accumulator. -/
def bitsVal (bs : List Bool) : ℕ :=
  bs.foldl (fun h b => 2 * h + b.toNat) 0

theorem two_mul_lor_toNat (a : ℕ) (b : Bool) :
    (2 * a) ||| b.toNat = 2 * a + b.toNat := by
  cases b
  · simp
  · show (2 * a) ||| 1 = 2 * a + 1
    apply Nat.eq_of_testBit_eq
    intro i
    rw [Nat.testBit_or]
    cases i with
    | zero => simp [Nat.testBit_zero, Nat.add_mod]
    | succ j =>
      rw [Nat.testBit_succ, Nat.testBit_succ, Nat.testBit_succ]
      have h1 : (1 : ℕ) / 2 = 0 := by norm_num
      have h2 : 2 * a / 2 = a := by omega
      have h3 : (2 * a + 1) / 2 = a := by omega
      simp [h1, h2, h3]

theorem bitsVal_foldl_acc (bs : List Bool) :
    ∀ acc : ℕ, bs.foldl (fun h b => 2 * h + b.toNat) acc
      = acc * 2 ^ bs.length + bitsVal bs := by
  induction bs with
  | nil => intro acc; simp [bitsVal]
  | cons b bs ih =>
    intro acc
    have hbs : bitsVal (b :: bs) = b.toNat * 2 ^ bs.length + bitsVal bs := by
      show bs.foldl (fun h b => 2 * h + b.toNat) (2 * 0 + b.toNat)
          = b.toNat * 2 ^ bs.length + bitsVal bs
      rw [ih (2 * 0 + b.toNat)]; ring_nf
    show bs.foldl (fun h b => 2 * h + b.toNat) (2 * acc + b.toNat)
        = acc * 2 ^ (b :: bs).length + bitsVal (b :: bs)
    rw [ih (2 * acc + b.toNat), hbs]
    simp [List.length_cons, pow_succ]
    ring

theorem bitsVal_lt (bs : List Bool) : bitsVal bs < 2 ^ bs.length := by
  induction bs with
  | nil => simp [bitsVal]
  | cons b bs ih =>
    have h : bitsVal (b :: bs) = b.toNat * 2 ^ bs.length + bitsVal bs := by
      show bs.foldl (fun h b => 2 * h + b.toNat) (2 * 0 + b.toNat)
          = b.toNat * 2 ^ bs.length + bitsVal bs
      rw [bitsVal_foldl_acc bs (2 * 0 + b.toNat)]; ring_nf
    rw [h, List.length_cons, pow_succ]
    have hb : b.toNat ≤ 1 := Bool.toNat_le b
    nlinarith [ih]

theorem foldl_dhashStep_eq (bs : List Bool) :
    ∀ acc : ℕ, acc < 2 ^ (64 - bs.length) → bs.length ≤ 64 →
      bs.foldl dhashStep acc = bs.foldl (fun h b => 2 * h + b.toNat) acc := by
  induction bs with
  | nil => intro acc _ _; rfl
  | cons b bs ih =>
    intro acc hacc hlen
    have hlc : (b :: bs).length = bs.length + 1 := List.length_cons b bs
    rw [hlc] at hacc hlen
    have hlen' : bs.length ≤ 64 := by omega
    have hexp : 64 - bs.length = (64 - (bs.length + 1)) + 1 := by omega
    have hacc2 : 2 * acc + b.toNat < 2 ^ (64 - bs.length) := by
      rw [hexp, pow_succ]
      have hb : b.toNat ≤ 1 := Bool.toNat_le b
      omega
    have hshift : acc <<< 1 = 2 * acc := by
      rw [Nat.shiftLeft_eq]; ring
    have hmod : (acc <<< 1) % 2 ^ 64 = 2 * acc := by
      rw [hshift]
      apply Nat.mod_eq_of_lt
      have h64 : (2:ℕ) ^ (64 - (bs.length + 1)) * 2 ≤ 2 ^ 64 := by
        rw [← pow_succ]
        exact Nat.pow_le_pow_right (by norm_num) (by omega)
      omega
    have hstep : dhashStep acc b = 2 * acc + b.toNat := by
      rw [dhashStep, hmod, two_mul_lor_toNat]
    show bs.foldl dhashStep (dhashStep acc b)
        = bs.foldl (fun h b => 2 * h + b.toNat) (2 * acc + b.toNat)
    rw [hstep]
    exact ih (2 * acc + b.toNat) hacc2 hlen'

theorem length_dhashBits (L : ℕ → ℕ → ℕ) : (dhashBits L).length = 64 := by
  rw [dhashBits, List.length_flatMap]
  simp [Function.comp_def]

theorem compute_dhash_eq_bitsVal (L : ℕ → ℕ → ℕ) :
    compute_dhash L = bitsVal (dhashBits L) := by
  rw [compute_dhash, bitsVal]
  exact foldl_dhashStep_eq (dhashBits L) 0
    (by rw [length_dhashBits]; norm_num) (by rw [length_dhashBits])

theorem testBit_bitsVal (bs : List Bool) (i : ℕ) :
    (bitsVal bs).testBit i
      = if i < bs.length then bs.getD (bs.length - 1 - i) false else false := by
  induction bs using List.reverseRecOn generalizing i with
  | nil => simp [bitsVal]
  | append_singleton bs b ih =>
    have hval : bitsVal (bs ++ [b]) = 2 * bitsVal bs + b.toNat := by
      rw [bitsVal, List.foldl_append]
      rfl
    rw [hval]
    cases i with
    | zero =>
      have hlen : (bs ++ [b]).length = bs.length + 1 := by simp
      have hidx : (bs ++ [b]).getD ((bs ++ [b]).length - 1 - 0) false = b := by
        rw [hlen]
        have : bs.length + 1 - 1 - 0 = bs.length := by omega
        rw [this, List.getD_append_right bs [b] false bs.length (le_refl _)]
        simp
      rw [hidx]
      have : (0 : ℕ) < (bs ++ [b]).length := by simp
      rw [if_pos this]
      cases b <;> simp [Nat.testBit_zero, Nat.add_mod, Nat.mul_mod_right]
    | succ j =>
      have hdiv : (2 * bitsVal bs + b.toNat) / 2 = bitsVal bs := by
        have hb : b.toNat ≤ 1 := Bool.toNat_le b
        omega
      rw [Nat.testBit_succ, hdiv, ih j]
      have hlen : (bs ++ [b]).length = bs.length + 1 := by simp
      by_cases hj : j < bs.length
      · rw [if_pos hj, if_pos (by omega : j + 1 < (bs ++ [b]).length)]
        have hidx : (bs ++ [b]).length - 1 - (j + 1) = bs.length - 1 - j := by
          rw [hlen]; omega
        rw [hidx, List.getD_append bs [b] false (bs.length - 1 - j) (by omega)]
      · rw [if_neg hj, if_neg (by omega : ¬(j + 1 < (bs ++ [b]).length))]

theorem testBit_compute_dhash (L : ℕ → ℕ → ℕ) (i : ℕ) (hi : i < 64) :
    (compute_dhash L).testBit i = (dhashBits L).getD (63 - i) false := by
  rw [compute_dhash_eq_bitsVal, testBit_bitsVal, length_dhashBits]
  rw [if_pos hi]

theorem getD_dhashBits (L : ℕ → ℕ → ℕ) (x y : ℕ) (hx : x < 8) (hy : y < 8) :
    (dhashBits L).getD (8 * y + x) false = dhashBit L x y := by
  have key : ∀ n : ℕ, ∀ y x : ℕ, y < n → x < 8 →
      (((List.range n).flatMap
          (fun y => (List.range 8).map (fun x => dhashBit L x y))).getD
        (8 * y + x) false)
        = dhashBit L x y := by
    intro n
    induction n with
    | zero => intro y x hy _; omega
    | succ m ih =>
      intro y x hy hx
      rw [List.range_succ, List.flatMap_append]
      have hlenA : ((List.range m).flatMap
          (fun y => (List.range 8).map (fun x => dhashBit L x y))).length
          = 8 * m := by
        rw [List.length_flatMap]
        simp [Function.comp_def, Nat.mul_comm]
      by_cases hym : y < m
      · rw [List.getD_append _ _ false (8 * y + x) (by rw [hlenA]; omega)]
        exact ih y x hym hx
      · have hym' : y = m := by omega
        subst hym'
        rw [List.getD_append_right _ _ false (8 * y + x) (by rw [hlenA]; omega)]
        rw [hlenA]
        have hidx : 8 * y + x - 8 * y = x := by omega
        rw [hidx]
        simp only [List.flatMap_singleton]
        rw [List.getD_eq_getElem _ false (by simpa using hx)]
        simp
  exact key 8 y x hy hx

theorem countP_eq_one_of_unique {α : Type} [DecidableEq α]
    (l : List α) (p : α → Bool) (k : α) (hk : k ∈ l)
    (hp : ∀ x ∈ l, (p x = true ↔ x = k)) (hnd : l.Nodup) :
    l.countP p = 1 := by
  induction l with
  | nil => cases hk
  | cons a l ih =>
    rcases List.mem_cons.mp hk with hak | hkl
    · rw [List.countP_cons,
        if_pos ((hp a (List.mem_cons_self a l)).mpr hak.symm)]
      have hzero : l.countP p = 0 := by
        rw [List.countP_eq_zero]
        intro x hx
        intro hpx
        have hxk := (hp x (List.mem_cons_of_mem a hx)).mp hpx
        exact (List.nodup_cons.mp hnd).1 (by rw [← hak, ← hxk]; exact hx)
      omega
    · rw [List.countP_cons]
      have hpa : ¬ p a = true := by
        intro hpa
        have hak : a = k := (hp a (List.mem_cons_self a l)).mp hpa
        exact (List.nodup_cons.mp hnd).1 (by rw [hak]; exact hkl)
      rw [if_neg hpa]
      have := ih hkl (fun x hx => hp x (List.mem_cons_of_mem a hx))
        (List.nodup_cons.mp hnd).2
      omega

theorem hamming64_bitsVal (bs bs' : List Bool)
    (h : bs.length = 64) (h' : bs'.length = 64) :
    hamming64 (bitsVal bs) (bitsVal bs')
      = (List.range 64).countP (fun j => bs.getD j false != bs'.getD j false) := by
  rw [hamming64]
  have hcongr : ∀ i ∈ List.range 64,
      ((bitsVal bs).testBit i != (bitsVal bs').testBit i)
        = ((bs.getD (63 - i) false) != (bs'.getD (63 - i) false)) := by
    intro i hi
    rw [List.mem_range] at hi
    rw [testBit_bitsVal, testBit_bitsVal, h, h',
      if_pos (by omega), if_pos (by omega)]
  rw [List.countP_congr (fun i hi => by rw [hcongr i hi])]
  have hmap : (List.range 64).countP
        (fun i => bs.getD (63 - i) false != bs'.getD (63 - i) false)
      = ((List.range 64).map (fun i => 63 - i)).countP
        (fun j => bs.getD j false != bs'.getD j false) := by
    rw [List.countP_map]
    rfl
  rw [hmap]
  have hperm : ((List.range 64).map (fun i => 63 - i)).Perm (List.range 64) := by
    decide
  exact hperm.countP_eq _

/-- Claim C6: the 64-bit dHash of a 9×8 luma grid sets, for every `y` in 0..8
and `x` in 0..8, a bit exactly when `L(x, y) > L(x+1, y)` (namely bit
`63 - (8*y + x)` of the accumulated `u64`); consequently, two luma grids that
differ in the outcome of exactly one adjacent-pixel comparison produce hashes
at Hamming distance exactly 1. -/
theorem compute_dhash_bit_rule_and_single_bit_distance
    (L L' : ℕ → ℕ → ℕ) (x y x₀ y₀ : Fin 8)
    (hdiff : dhashBit L x₀ y₀ ≠ dhashBit L' x₀ y₀)
    (hsame : ∀ a b : Fin 8, ¬(a = x₀ ∧ b = y₀) → dhashBit L a b = dhashBit L' a b) :
    (compute_dhash L).testBit (63 - (8 * (y : ℕ) + (x : ℕ))) = dhashBit L x y ∧
    hamming64 (compute_dhash L) (compute_dhash L') = 1 := by
  have hxlt : (x : ℕ) < 8 := x.isLt
  have hylt : (y : ℕ) < 8 := y.isLt
  have hx0lt : (x₀ : ℕ) < 8 := x₀.isLt
  have hy0lt : (y₀ : ℕ) < 8 := y₀.isLt
  constructor
  · rw [testBit_compute_dhash L _ (by omega)]
    have hix : 63 - (63 - (8 * (y : ℕ) + (x : ℕ))) = 8 * (y : ℕ) + (x : ℕ) := by
      omega
    rw [hix]
    exact getD_dhashBits L x y hxlt hylt
  · rw [compute_dhash_eq_bitsVal, compute_dhash_eq_bitsVal,
      hamming64_bitsVal _ _ (length_dhashBits L) (length_dhashBits L')]
    apply countP_eq_one_of_unique _ _ (8 * (y₀ : ℕ) + (x₀ : ℕ))
      (List.mem_range.mpr (by omega))
    · intro j hj
      rw [List.mem_range] at hj
      have hxj : j % 8 < 8 := Nat.mod_lt _ (by norm_num)
      have hyj : j / 8 < 8 := by omega
      have hsplit : 8 * (j / 8) + j % 8 = j := by omega
      have hgetL := getD_dhashBits L (j % 8) (j / 8) hxj hyj
      have hgetL' := getD_dhashBits L' (j % 8) (j / 8) hxj hyj
      rw [hsplit] at hgetL hgetL'
      rw [hgetL, hgetL', bne_iff_ne]
      constructor
      · intro hne
        by_contra hj0
        have hnot : ¬((⟨j % 8, hxj⟩ : Fin 8) = x₀ ∧ (⟨j / 8, hyj⟩ : Fin 8) = y₀) := by
          intro hand
          apply hj0
          have h1 : j % 8 = (x₀ : ℕ) := congrArg Fin.val hand.1
          have h2 : j / 8 = (y₀ : ℕ) := congrArg Fin.val hand.2
          omega
        exact hne (hsame ⟨j % 8, hxj⟩ ⟨j / 8, hyj⟩ hnot)
      · intro hj0
        have h1 : j % 8 = (x₀ : ℕ) := by omega
        have h2 : j / 8 = (y₀ : ℕ) := by omega
        rw [h1, h2]
        exact hdiff
    · exact List.nodup_range 64

/-- Grid with exactly one true comparison (at column 0, row 0). -/
def dhashGridA : ℕ → ℕ → ℕ := fun x y => if x = 0 ∧ y = 0 then 1 else 0

/-- Constant grid: every comparison is false. -/
def dhashGridB : ℕ → ℕ → ℕ := fun _ _ => 0

/-- Witness for claim C6 at the concrete grids `dhashGridA`, `dhashGridB`,
which differ exactly in the comparison at column 0, row 0. -/
theorem compute_dhash_bit_rule_and_single_bit_distance_witness :
    (compute_dhash dhashGridA).testBit
        (63 - (8 * (((0 : Fin 8)) : ℕ) + (((0 : Fin 8)) : ℕ)))
      = dhashBit dhashGridA (0 : Fin 8) (0 : Fin 8) ∧
    hamming64 (compute_dhash dhashGridA) (compute_dhash dhashGridB) = 1 :=
  compute_dhash_bit_rule_and_single_bit_distance dhashGridA dhashGridB 0 0 0 0
    (by decide) (by decide)

/-! ### Embedding serialization (src/embedding.rs)

`serialize_embedding` packs each `f32` component as its four little-endian
bytes (`f32::to_le_bytes`); `deserialize_embedding` reads back groups of four
bytes with `chunks_exact(4)` and `f32::from_le_bytes`, dropping a trailing
group shorter than four bytes.  An `f32` is modelled by its 32-bit pattern,
a natural number below 2 ^ 32, which is exactly the value `to_le_bytes` /
`from_le_bytes` transport. -/

/-- Little-endian byte decomposition of a 32-bit value
(`f32::to_le_bytes` on the bit pattern). -/
def toLeBytes (v : ℕ) : List ℕ :=
  [v % 256, v / 256 % 256, v / 256 ^ 2 % 256, v / 256 ^ 3 % 256]

/-- Reassembly of a 32-bit value from its four little-endian bytes
(`f32::from_le_bytes`). -/
def fromLeBytes (b0 b1 b2 b3 : ℕ) : ℕ :=
  b0 + 256 * b1 + 256 ^ 2 * b2 + 256 ^ 3 * b3

/-- Serialization of an embedding vector (src/embedding.rs,
`serialize_embedding`): concatenate the little-endian bytes of every
component. -/
def serialize_embedding (v : List ℕ) : List ℕ :=
  v.flatMap toLeBytes

/-- Deserialization of an embedding vector (src/embedding.rs,
`deserialize_embedding`): map `from_le_bytes` over the exact 4-byte chunks,
dropping any shorter remainder. -/
def deserialize_embedding : List ℕ → List ℕ
  | b0 :: b1 :: b2 :: b3 :: rest => fromLeBytes b0 b1 b2 b3 :: deserialize_embedding rest
  | _ => []

/-- Claim C7: for every vector of float32 values (modelled by their 32-bit
patterns), deserializing the little-endian float32 serialization returns the
vector bit-exactly. -/
theorem deserialize_serialize_embedding (v : List ℕ) (hv : ∀ x ∈ v, x < 2 ^ 32) :
    deserialize_embedding (serialize_embedding v) = v := by
  induction v with
  | nil => rfl
  | cons a v ih =>
    have ha : a < 2 ^ 32 := hv a (List.mem_cons_self a v)
    have hrest : ∀ x ∈ v, x < 2 ^ 32 := fun x hx => hv x (List.mem_cons_of_mem a hx)
    have hhead : fromLeBytes (a % 256) (a / 256 % 256) (a / 256 ^ 2 % 256)
        (a / 256 ^ 3 % 256) = a := by
      rw [fromLeBytes]
      omega
    calc deserialize_embedding (serialize_embedding (a :: v))
        = fromLeBytes (a % 256) (a / 256 % 256) (a / 256 ^ 2 % 256)
            (a / 256 ^ 3 % 256) :: deserialize_embedding (serialize_embedding v) := rfl
      _ = a :: v := by rw [hhead, ih hrest]

/-- Witness for claim C7 at a concrete three-component vector (including a
component with the high bit set). -/
theorem deserialize_serialize_embedding_witness :
    deserialize_embedding (serialize_embedding [0, 1065353216, 3212836864])
      = [0, 1065353216, 3212836864] :=
  deserialize_serialize_embedding [0, 1065353216, 3212836864] (by decide)

/-! ### Embedding normalization and persistence (src/embedding.rs,
`normalize_embedding`; src/jobs.rs, `run_embedding_stage`)

`normalize_embedding` computes `norm = sqrt(Σ vᵢ²).max(1e-6)`, divides every
component by it and returns `(normalized, norm)`.  The embedding stage then
persists the normalized vector with `upsert_embedding(conn, photo_id,
&embedding_vec, 1.0)`: the returned norm is discarded (bound as `_norm`) and
the constant 1.0 is stored.  Components are modelled over the reals. -/

/-- L2 norm of an embedding vector, floored at 1e-6, as computed inside
`normalize_embedding`. -/
noncomputable def l2NormFloored (v : List ℝ) : ℝ :=
  max (Real.sqrt ((v.map (fun x => x * x)).sum)) (1 / 1000000)

/-- Normalization of an embedding (src/embedding.rs, `normalize_embedding`):
divide each component by the floored L2 norm and return the pair
`(normalized, norm)`. -/
noncomputable def normalize_embedding (v : List ℝ) : List ℝ × ℝ :=
  (v.map (fun x => x / l2NormFloored v), l2NormFloored v)

/-- Persistence step of the embedding stage (src/jobs.rs,
`run_embedding_stage`): the pair (vector, norm) passed to
`db::upsert_embedding` is the normalized vector together with the literal
`1.0`; the norm returned by `normalize_embedding` is discarded. -/
noncomputable def embeddingStagePersist (v : List ℝ) : List ℝ × ℝ :=
  ((normalize_embedding v).1, 1)

/-- Pre-normalization L2 norm of the vector `[3, 4]` is 5. -/
theorem sqrt_sum_sq_three_four :
    Real.sqrt (((([3, 4] : List ℝ)).map (fun x => x * x)).sum) = 5 := by
  have h : ((([3, 4] : List ℝ)).map (fun x => x * x)).sum = 25 := by
    norm_num
  rw [h, show (25 : ℝ) = 5 ^ 2 by norm_num,
    Real.sqrt_sq (by norm_num : (0 : ℝ) ≤ 5)]

/-- Counterexample to claim C8 as stated: for the vector `[3, 4]` the
pre-normalization norm is 5, but the embedding stage stores the constant 1.0
as the norm, so the stored norm is not the original norm. -/
theorem embedding_stage_stored_norm_not_original :
    (embeddingStagePersist [3, 4]).2
      ≠ Real.sqrt (((([3, 4] : List ℝ)).map (fun x => x * x)).sum) := by
  rw [sqrt_sum_sq_three_four]
  show (1 : ℝ) ≠ 5
  norm_num

/-- Claim C8 (amended): normalization divides each component by the L2 norm
floored at 1e-6 and returns that floored norm, and the floor really bounds it
below; but when the embedding stage persists the normalized vector it stores
the constant 1.0 as the norm, discarding the value returned by
`normalize_embedding`. -/
theorem normalize_embedding_divides_and_stage_stores_one (v : List ℝ) :
    (normalize_embedding v).1 = v.map (fun x => x / l2NormFloored v) ∧
    (normalize_embedding v).2 = l2NormFloored v ∧
    (1 / 1000000 : ℝ) ≤ l2NormFloored v ∧
    (embeddingStagePersist v).1 = (normalize_embedding v).1 ∧
    (embeddingStagePersist v).2 = 1 := by
  refine ⟨rfl, rfl, le_max_right _ _, rfl, rfl⟩

/-! ### Heuristic tagging (src/tagging.rs, `heuristic_tags` and `classify`)

`classify` runs the scene, detection and face models (all of which return
empty results when their sessions are absent), fuses the three result maps,
and — only when the fused map is empty and ONNX is disabled — extends it with
`heuristic_tags`.  Tag maps (`HashMap<String, f32>`) are modelled as
association lists with unique keys and `insert` as replace-or-append;
confidences are modelled as rationals.  `heuristic_tags` receives the preview
file name (the source applies `file_name()` to the preview path, an external
path operation) already extracted. -/

/-- Exif record (src/models.rs, `ExifMetadata`). -/
structure ExifMetadata where
  make : Option String := none
  model : Option String := none
  lens : Option String := none
  body_serial : Option String := none
  datetime_original : Option ℤ := none
  iso : Option ℤ := none
  fnumber : Option ℚ := none
  focal_length : Option ℚ := none
  exposure_time : Option ℚ := none
  exposure_comp : Option ℚ := none
  gps_lat : Option ℚ := none
  gps_lng : Option ℚ := none
  width : Option ℤ := none
  height : Option ℤ := none
deriving DecidableEq, Repr

/-- Tag-map insert (`HashMap::insert`): replace the value of an existing key,
otherwise append the new pair. -/
def insertTag : List (String × ℚ) → String → ℚ → List (String × ℚ)
  | [], k, v => [(k, v)]
  | p :: m, k, v => if p.1 = k then (k, v) :: m else p :: insertTag m k v

/-- Tag-map lookup (`HashMap::get`). -/
def lookupTag (m : List (String × ℚ)) (k : String) : Option ℚ :=
  (m.find? (fun p => p.1 = k)).map Prod.snd

theorem lookupTag_nil (k : String) : lookupTag [] k = none := rfl

theorem lookupTag_cons (p : String × ℚ) (m : List (String × ℚ)) (k : String) :
    lookupTag (p :: m) k = if p.1 = k then some p.2 else lookupTag m k := by
  by_cases hp : p.1 = k <;> simp [lookupTag, hp]

theorem insertTag_cons_replace (p : String × ℚ) (m : List (String × ℚ))
    (k : String) (v : ℚ) (hp : p.1 = k) :
    insertTag (p :: m) k v = (k, v) :: m := by
  rw [insertTag, if_pos hp]

theorem insertTag_cons_keep (p : String × ℚ) (m : List (String × ℚ))
    (k : String) (v : ℚ) (hp : ¬(p.1 = k)) :
    insertTag (p :: m) k v = p :: insertTag m k v := by
  rw [insertTag, if_neg hp]

theorem lookupTag_insertTag (m : List (String × ℚ)) (k : String) (v : ℚ)
    (q : String) :
    lookupTag (insertTag m k v) q = if q = k then some v else lookupTag m q := by
  induction m with
  | nil =>
    show lookupTag [(k, v)] q = if q = k then some v else lookupTag [] q
    rw [lookupTag_cons, lookupTag_nil]
    by_cases hq : q = k
    · rw [if_pos hq, if_pos hq.symm]
    · rw [if_neg hq, if_neg (fun h => hq h.symm)]
  | cons p m ih =>
    by_cases hp : p.1 = k
    · rw [insertTag_cons_replace p m k v hp, lookupTag_cons, lookupTag_cons]
      by_cases hq : q = k
      · rw [if_pos hq, if_pos (by rw [hq] : (k, v).1 = q)]
      · have hkq : ¬((k, v).1 = q) := fun h => hq h.symm
        have hpq : ¬(p.1 = q) := by rw [hp]; exact fun h => hq h.symm
        rw [if_neg hq, if_neg hkq, if_neg hpq]
    · rw [insertTag_cons_keep p m k v hp, lookupTag_cons, lookupTag_cons, ih]
      by_cases hpq : p.1 = q
      · have hqk : ¬(q = k) := by
          intro h
          exact hp (by rw [hpq, h])
        rw [if_pos hpq, if_neg hqk, if_pos hpq]
      · rw [if_neg hpq, if_neg hpq]

/-- Keys of a tag map. -/
def tagKeys (m : List (String × ℚ)) : List String := m.map Prod.fst

theorem tagKeys_nil : tagKeys [] = [] := rfl

theorem tagKeys_cons (p : String × ℚ) (m : List (String × ℚ)) :
    tagKeys (p :: m) = p.1 :: tagKeys m := rfl

theorem tagKeys_insertTag (m : List (String × ℚ)) (k : String) (v : ℚ) :
    tagKeys (insertTag m k v)
      = if k ∈ tagKeys m then tagKeys m else tagKeys m ++ [k] := by
  induction m with
  | nil =>
    show tagKeys [(k, v)] = if k ∈ tagKeys [] then tagKeys [] else tagKeys [] ++ [k]
    rw [tagKeys_nil, if_neg (List.not_mem_nil k)]
    rfl
  | cons p m ih =>
    by_cases hp : p.1 = k
    · rw [insertTag_cons_replace p m k v hp, tagKeys_cons, tagKeys_cons,
        if_pos (List.mem_cons.mpr (Or.inl hp.symm) : k ∈ p.1 :: tagKeys m)]
      rw [hp]
    · rw [insertTag_cons_keep p m k v hp, tagKeys_cons, tagKeys_cons, ih]
      by_cases hk : k ∈ tagKeys m
      · rw [if_pos hk, if_pos (List.mem_cons_of_mem _ hk : k ∈ p.1 :: tagKeys m)]
      · have hk' : ¬(k ∈ p.1 :: tagKeys m) := by
          intro hmem
          rcases List.mem_cons.mp hmem with h1 | h2
          · exact hp h1.symm
          · exact hk h2
        rw [if_neg hk, if_neg hk']
        rfl

theorem nodup_tagKeys_insertTag (m : List (String × ℚ)) (k : String) (v : ℚ)
    (hnd : (tagKeys m).Nodup) : (tagKeys (insertTag m k v)).Nodup := by
  rw [tagKeys_insertTag]
  by_cases hk : k ∈ tagKeys m
  · rw [if_pos hk]; exact hnd
  · rw [if_neg hk]
    rw [List.nodup_append]
    exact ⟨hnd, List.nodup_singleton k, by simpa using hk⟩

theorem insertTag_of_not_mem (m : List (String × ℚ)) (k : String) (v : ℚ)
    (hk : ¬(k ∈ tagKeys m)) : insertTag m k v = m ++ [(k, v)] := by
  induction m with
  | nil => rfl
  | cons p m ih =>
    have hp : ¬(p.1 = k) := by
      intro h
      exact hk (by rw [tagKeys, List.map_cons, h]; exact List.mem_cons_self _ _)
    rw [insertTag, if_neg hp, List.cons_append, ih]
    intro hmem
    exact hk (by rw [tagKeys, List.map_cons]; exact List.mem_cons_of_mem _ hmem)

theorem foldl_insertTag_of_nodup (l : List (String × ℚ)) :
    ∀ acc : List (String × ℚ), (tagKeys (acc ++ l)).Nodup →
      l.foldl (fun m p => insertTag m p.1 p.2) acc = acc ++ l := by
  induction l with
  | nil => intro acc _; simp
  | cons p l ih =>
    intro acc hnd
    have hkeys : tagKeys (acc ++ p :: l) = tagKeys acc ++ p.1 :: tagKeys l := by
      simp [tagKeys]
    rw [hkeys] at hnd
    have hp : ¬(p.1 ∈ tagKeys acc) := by
      intro hmem
      have := List.disjoint_of_nodup_append hnd
      exact this hmem (List.mem_cons_self _ _)
    rw [List.foldl_cons, insertTag_of_not_mem acc p.1 p.2 hp]
    have hnd' : (tagKeys ((acc ++ [p]) ++ l)).Nodup := by
      have : tagKeys ((acc ++ [p]) ++ l) = tagKeys acc ++ p.1 :: tagKeys l := by
        simp [tagKeys]
      rw [this]
      exact hnd
    have := ih (acc ++ [(p.1, p.2)]) (by simpa using hnd')
    simpa using this

/-- Test whether the character list starts with the pattern (helper for
substring containment). -/
def startsWithChars : List Char → List Char → Bool
  | [], _ => true
  | _ :: _, [] => false
  | p :: ps, c :: cs => p == c && startsWithChars ps cs

/-- Substring containment on character lists. -/
def containsChars (pat : List Char) : List Char → Bool
  | [] => startsWithChars pat []
  | c :: cs => startsWithChars pat (c :: cs) || containsChars pat cs

/-- Model of Rust `String::to_lowercase` (per-character lowercasing). -/
def strToLower (s : String) : String := ⟨s.data.map Char.toLower⟩

/-- Model of Rust `str::contains` (substring containment). -/
def strContains (s pat : String) : Bool := containsChars pat.data s.data

/-- Street rule of `heuristic_tags`: lowercased file name containing
"street" inserts street 0.6. -/
def streetStep (name0 : String) (m : List (String × ℚ)) : List (String × ℚ) :=
  if strContains (strToLower name0) "street" then insertTag m "street" (3/5) else m

/-- Aspect-ratio rule of `heuristic_tags`: with both dimensions present,
`w > h + h/5` inserts landscape 0.5, otherwise `h > w + w/5` inserts
portrait 0.5 (`/` is truncating `i64` division). -/
def aspectStep (width height : Option ℤ) (m : List (String × ℚ)) :
    List (String × ℚ) :=
  match width, height with
  | some w, some h =>
    if w > h + Int.tdiv h 5 then insertTag m "landscape" (1/2)
    else if h > w + Int.tdiv w 5 then insertTag m "portrait" (1/2)
    else m
  | _, _ => m

/-- Focal-length rule of `heuristic_tags`: `focal >= 70.0` inserts
portrait 0.6. -/
def focalStep (focal : Option ℚ) (m : List (String × ℚ)) : List (String × ℚ) :=
  match focal with
  | some f => if f ≥ 70 then insertTag m "portrait" (3/5) else m
  | none => m

/-- GPS rule of `heuristic_tags`: either coordinate present inserts
nature 0.4. -/
def gpsStep (lat lng : Option ℚ) (m : List (String × ℚ)) : List (String × ℚ) :=
  if lat.isSome || lng.isSome then insertTag m "nature" (2/5) else m

/-- Heuristic tagger (src/tagging.rs, `heuristic_tags`): starting from the
empty map, apply the street, aspect-ratio, focal-length and GPS rules in
order.  `name0` is the preview file name (the source lowercases
`preview_path.file_name()`). -/
def heuristic_tags (name0 : String) (exif : ExifMetadata) : List (String × ℚ) :=
  gpsStep exif.gps_lat exif.gps_lng
    (focalStep exif.focal_length
      (aspectStep exif.width exif.height
        (streetStep name0 [])))

/-- Scene tags that must be confirmed by the detector
(src/tagging.rs, `DETECTION_REQUIRED_TAGS`). -/
def DETECTION_REQUIRED_TAGS : List String :=
  ["amphibian", "bird", "cat", "clothing", "dog", "electronic", "fish",
   "food", "furniture", "insect_invertebrate", "instrument", "mammal_other",
   "reptile", "sport", "tool", "vehicle"]

/-- Penalty for scene tags the detector did not mention
(src/tagging.rs, `SCENE_UNRELATED_PENALTY = 0.5`). -/
def SCENE_UNRELATED_PENALTY : ℚ := 1/2

/-- Boost added to detection tags (src/tagging.rs,
`DETECTION_TAG_BOOST = 0.20`). -/
def DETECTION_TAG_BOOST : ℚ := 1/5

/-- Fusion phase of `classify` (src/tagging.rs): merge scene probabilities,
detection probabilities and the face portrait score into one tag map, then —
only when the map is empty and ONNX is not enabled — extend it with the
heuristic tags. -/
def classifyFusion (sceneProbs detectionProbs : List (String × ℚ))
    (portraitScore : ℚ) (onnxEnabled : Bool) (name0 : String)
    (exif : ExifMetadata) : List (String × ℚ) :=
  let tags := sceneProbs.foldl (fun m p =>
    if ¬detectionProbs.isEmpty ∧ p.1 ∈ DETECTION_REQUIRED_TAGS ∧
        ¬(detectionProbs.any (fun q => q.1 = p.1)) then m
    else
      insertTag m p.1
        (if ¬detectionProbs.isEmpty ∧ ¬(detectionProbs.any (fun q => q.1 = p.1))
         then p.2 * SCENE_UNRELATED_PENALTY else p.2)) []
  let tags := detectionProbs.foldl (fun m p =>
    insertTag m p.1
      (max ((lookupTag m p.1).getD 0) (min (p.2 + DETECTION_TAG_BOOST) 1))) tags
  let tags := if portraitScore > 0 then
      insertTag tags "portrait" (max ((lookupTag tags "portrait").getD 0) portraitScore)
    else tags
  if tags.isEmpty ∧ ¬onnxEnabled then
    (heuristic_tags name0 exif).foldl (fun m p => insertTag m p.1 p.2) tags
  else tags

/-- Classification without any loaded model: the scene and detection passes
return empty maps, the face pass returns 0.0, and `onnx_enabled` is false
(src/tagging.rs, `classify` with all sessions absent). -/
def classify_no_model (name0 : String) (exif : ExifMetadata) :
    List (String × ℚ) :=
  classifyFusion [] [] 0 false name0 exif

theorem lookupTag_streetStep (name0 : String) (m : List (String × ℚ))
    (k : String) :
    lookupTag (streetStep name0 m) k
      = if strContains (strToLower name0) "street" ∧ k = "street"
        then some (3/5) else lookupTag m k := by
  by_cases hc : strContains (strToLower name0) "street"
  · rw [streetStep, if_pos hc, lookupTag_insertTag]
    by_cases hk : k = "street"
    · rw [if_pos hk, if_pos ⟨hc, hk⟩]
    · rw [if_neg hk, if_neg (fun h => hk h.2)]
  · rw [streetStep, if_neg hc, if_neg (fun h => hc h.1)]

/-- Condition under which the aspect rule yields a landscape tag. -/
def aspectLandscape (width height : Option ℤ) : Prop :=
  match width, height with
  | some w, some h => w > h + Int.tdiv h 5
  | _, _ => False

/-- Condition under which the aspect rule yields a portrait tag. -/
def aspectPortrait (width height : Option ℤ) : Prop :=
  match width, height with
  | some w, some h => ¬(w > h + Int.tdiv h 5) ∧ h > w + Int.tdiv w 5
  | _, _ => False

instance (width height : Option ℤ) : Decidable (aspectLandscape width height) :=
  match width, height with
  | some w, some h => decidable_of_iff (w > h + Int.tdiv h 5) Iff.rfl
  | some _, none => isFalse id
  | none, some _ => isFalse id
  | none, none => isFalse id

instance (width height : Option ℤ) : Decidable (aspectPortrait width height) :=
  match width, height with
  | some w, some h =>
    decidable_of_iff (¬(w > h + Int.tdiv h 5) ∧ h > w + Int.tdiv w 5) Iff.rfl
  | some _, none => isFalse id
  | none, some _ => isFalse id
  | none, none => isFalse id

theorem lookupTag_aspectStep (width height : Option ℤ)
    (m : List (String × ℚ)) (k : String) :
    lookupTag (aspectStep width height m) k
      = if aspectLandscape width height ∧ k = "landscape" then some (1/2)
        else if aspectPortrait width height ∧ k = "portrait" then some (1/2)
        else lookupTag m k := by
  rcases width with _ | w <;> rcases height with _ | h
  · simp [aspectStep, aspectLandscape, aspectPortrait]
  · simp [aspectStep, aspectLandscape, aspectPortrait]
  · simp [aspectStep, aspectLandscape, aspectPortrait]
  · by_cases hl : w > h + Int.tdiv h 5
    · rw [show aspectStep (some w) (some h) m = insertTag m "landscape" (1/2) from
        by rw [aspectStep]; rw [if_pos hl], lookupTag_insertTag]
      by_cases hk : k = "landscape"
      · rw [if_pos hk, if_pos ⟨hl, hk⟩]
      · rw [if_neg hk, if_neg (fun hand => hk hand.2),
          if_neg (fun hand => hand.1.1 hl)]
    · by_cases hp : h > w + Int.tdiv w 5
      · rw [show aspectStep (some w) (some h) m = insertTag m "portrait" (1/2) from
          by rw [aspectStep]; rw [if_neg hl, if_pos hp], lookupTag_insertTag]
        by_cases hk : k = "portrait"
        · rw [if_pos hk, if_neg (fun hand => hl hand.1), if_pos ⟨⟨hl, hp⟩, hk⟩]
        · rw [if_neg hk, if_neg (fun hand => hl hand.1),
            if_neg (fun hand => hk hand.2)]
      · rw [show aspectStep (some w) (some h) m = m from
          by rw [aspectStep]; rw [if_neg hl, if_neg hp],
          if_neg (fun hand => hl hand.1),
          if_neg (fun hand => hp hand.1.2)]

/-- Condition under which the focal rule yields a portrait tag (note the
source tests `focal >= 70.0`). -/
def focalPortrait (focal : Option ℚ) : Prop :=
  match focal with
  | some f => f ≥ 70
  | none => False

instance (focal : Option ℚ) : Decidable (focalPortrait focal) :=
  match focal with
  | some f => decidable_of_iff (f ≥ 70) Iff.rfl
  | none => isFalse id

theorem lookupTag_focalStep (focal : Option ℚ) (m : List (String × ℚ))
    (k : String) :
    lookupTag (focalStep focal m) k
      = if focalPortrait focal ∧ k = "portrait" then some (3/5)
        else lookupTag m k := by
  rcases focal with _ | f
  · simp [focalStep, focalPortrait]
  · by_cases hf : f ≥ 70
    · rw [show focalStep (some f) m = insertTag m "portrait" (3/5) from
        by rw [focalStep]; rw [if_pos hf], lookupTag_insertTag]
      by_cases hk : k = "portrait"
      · rw [if_pos hk, if_pos ⟨hf, hk⟩]
      · rw [if_neg hk, if_neg (fun hand => hk hand.2)]
    · rw [show focalStep (some f) m = m from by rw [focalStep]; rw [if_neg hf],
        if_neg (fun hand => hf hand.1)]

theorem lookupTag_gpsStep (lat lng : Option ℚ) (m : List (String × ℚ))
    (k : String) :
    lookupTag (gpsStep lat lng m) k
      = if (lat.isSome || lng.isSome) ∧ k = "nature" then some (2/5)
        else lookupTag m k := by
  by_cases hg : (lat.isSome || lng.isSome : Bool)
  · rw [gpsStep, if_pos hg, lookupTag_insertTag]
    by_cases hk : k = "nature"
    · rw [if_pos hk, if_pos ⟨hg, hk⟩]
    · rw [if_neg hk, if_neg (fun hand => hk hand.2)]
  · rw [gpsStep, if_neg hg, if_neg (fun hand => hg hand.1)]

theorem nodup_tagKeys_streetStep (name0 : String) (m : List (String × ℚ))
    (hnd : (tagKeys m).Nodup) : (tagKeys (streetStep name0 m)).Nodup := by
  rw [streetStep]
  split
  · exact nodup_tagKeys_insertTag m _ _ hnd
  · exact hnd

theorem nodup_tagKeys_aspectStep (width height : Option ℤ)
    (m : List (String × ℚ)) (hnd : (tagKeys m).Nodup) :
    (tagKeys (aspectStep width height m)).Nodup := by
  rcases width with _ | w <;> rcases height with _ | h
  · exact hnd
  · exact hnd
  · exact hnd
  · rw [show aspectStep (some w) (some h) m
        = if w > h + Int.tdiv h 5 then insertTag m "landscape" (1/2)
          else if h > w + Int.tdiv w 5 then insertTag m "portrait" (1/2)
          else m from rfl]
    split
    · exact nodup_tagKeys_insertTag m _ _ hnd
    · split
      · exact nodup_tagKeys_insertTag m _ _ hnd
      · exact hnd

theorem nodup_tagKeys_focalStep (focal : Option ℚ) (m : List (String × ℚ))
    (hnd : (tagKeys m).Nodup) : (tagKeys (focalStep focal m)).Nodup := by
  rcases focal with _ | f
  · exact hnd
  · rw [show focalStep (some f) m
        = if f ≥ 70 then insertTag m "portrait" (3/5) else m from rfl]
    split
    · exact nodup_tagKeys_insertTag m _ _ hnd
    · exact hnd

theorem nodup_tagKeys_gpsStep (lat lng : Option ℚ) (m : List (String × ℚ))
    (hnd : (tagKeys m).Nodup) : (tagKeys (gpsStep lat lng m)).Nodup := by
  rw [gpsStep]
  split
  · exact nodup_tagKeys_insertTag m _ _ hnd
  · exact hnd

theorem nodup_tagKeys_heuristic (name0 : String) (exif : ExifMetadata) :
    (tagKeys (heuristic_tags name0 exif)).Nodup := by
  rw [heuristic_tags]
  exact nodup_tagKeys_gpsStep _ _ _
    (nodup_tagKeys_focalStep _ _
      (nodup_tagKeys_aspectStep _ _ _
        (nodup_tagKeys_streetStep _ _ (by rw [tagKeys_nil]; exact List.nodup_nil))))

theorem classify_no_model_eq_heuristic (name0 : String) (exif : ExifMetadata) :
    classify_no_model name0 exif = heuristic_tags name0 exif := by
  rw [classify_no_model]
  unfold classifyFusion
  simp only [List.foldl_nil]
  rw [if_neg (by norm_num : ¬((0 : ℚ) > 0))]
  rw [if_pos (by simp)]
  have h := foldl_insertTag_of_nodup (heuristic_tags name0 exif) []
    (by simpa using nodup_tagKeys_heuristic name0 exif)
  simpa using h

/-- Claim C9 (amended): when the engine runs without any model the resulting
tag map is exactly the heuristic result, where: a (lowercased) preview file
name containing "street" yields street 0.6; width sufficiently greater than
height (`w > h + h/5`) yields landscape 0.5 and height sufficiently greater
than width yields portrait 0.5; focal length ≥ 70 mm (the source tests
`focal >= 70.0`, not `> 70`) yields portrait 0.6, overriding the aspect
portrait; any GPS coordinate present yields nature 0.4; and no other tag is
produced. -/
theorem classify_no_model_exact_heuristics (name0 : String) (exif : ExifMetadata) :
    classify_no_model name0 exif = heuristic_tags name0 exif ∧
    lookupTag (heuristic_tags name0 exif) "street"
      = (if strContains (strToLower name0) "street" then some (3/5) else none) ∧
    lookupTag (heuristic_tags name0 exif) "landscape"
      = (if aspectLandscape exif.width exif.height then some (1/2) else none) ∧
    lookupTag (heuristic_tags name0 exif) "portrait"
      = (if focalPortrait exif.focal_length then some (3/5)
         else if aspectPortrait exif.width exif.height then some (1/2)
         else none) ∧
    lookupTag (heuristic_tags name0 exif) "nature"
      = (if exif.gps_lat.isSome || exif.gps_lng.isSome then some (2/5)
         else none) ∧
    (∀ k : String,
      ¬(k = "street" ∨ k = "landscape" ∨ k = "portrait" ∨ k = "nature") →
      lookupTag (heuristic_tags name0 exif) k = none) := by
  refine ⟨classify_no_model_eq_heuristic name0 exif, ?_, ?_, ?_, ?_, ?_⟩
  · rw [heuristic_tags, lookupTag_gpsStep, lookupTag_focalStep,
      lookupTag_aspectStep, lookupTag_streetStep]
    simp [lookupTag_nil]
  · rw [heuristic_tags, lookupTag_gpsStep, lookupTag_focalStep,
      lookupTag_aspectStep, lookupTag_streetStep]
    simp [lookupTag_nil]
  · rw [heuristic_tags, lookupTag_gpsStep, lookupTag_focalStep,
      lookupTag_aspectStep, lookupTag_streetStep]
    simp [lookupTag_nil]
  · rw [heuristic_tags, lookupTag_gpsStep, lookupTag_focalStep,
      lookupTag_aspectStep, lookupTag_streetStep]
    simp [lookupTag_nil]
  · intro k hk
    push_neg at hk
    obtain ⟨h1, h2, h3, h4⟩ := hk
    rw [heuristic_tags, lookupTag_gpsStep, lookupTag_focalStep,
      lookupTag_aspectStep, lookupTag_streetStep]
    simp [lookupTag_nil, h1, h2, h3, h4]

/-- Exif record whose focal length is exactly 70 mm and nothing else. -/
def exifFocalSeventy : ExifMetadata := { focal_length := some 70 }

/-- Counterexample to claim C9 as stated: with no model, a preview named
"photo.jpg" and focal length exactly 70 mm, the code emits portrait 0.6 even
though 70 > 70 is false, so the stated rule "focal length > 70 mm yields
portrait 0.6" (under which this tag map would be empty) does not match the
code, which tests `focal >= 70.0`. -/
theorem classify_no_model_focal_seventy_counterexample :
    lookupTag (classify_no_model "photo.jpg" exifFocalSeventy) "portrait"
      = some (3/5) ∧ ¬((70 : ℚ) > 70) := by
  constructor
  · rw [classify_no_model_eq_heuristic, heuristic_tags, lookupTag_gpsStep,
      lookupTag_focalStep]
    have hgps : ¬((exifFocalSeventy.gps_lat.isSome
        || exifFocalSeventy.gps_lng.isSome : Bool) ∧ "portrait" = "nature") := by
      intro h
      exact absurd h.2 (by decide)
    rw [if_neg hgps]
    have hf : focalPortrait exifFocalSeventy.focal_length := by
      show (70 : ℚ) ≥ 70
      exact le_refl _
    rw [if_pos ⟨hf, rfl⟩]
  · norm_num

/-- Witness for claim C9: importing a file whose preview name contains
"street" with ONNX disabled yields the tag street with confidence 0.6. -/
theorem classify_no_model_exact_heuristics_witness :
    lookupTag (heuristic_tags "street_corner.jpg" {}) "street" = some (3/5) := by
  rw [(classify_no_model_exact_heuristics "street_corner.jpg" {}).2.1]
  rw [if_pos (by decide)]

/-! ### Catalog store (src/db.rs over the schema of src/schema.rs)

The photos table is migrations 0001 + 0003: note it has no `dhash` column,
and `upsert_photo` writes neither `dhash` nor (on conflict) `import_batch_id`.
SQLite state is modelled as a list of rows plus the AUTOINCREMENT counter;
`strftime('%s','now')` is modelled by an explicit `now` parameter. -/

/-- Photo record as assembled by the pipeline (src/models.rs,
`PhotoRecord`). -/
structure PhotoRecord where
  id : Option ℤ := none
  path : String
  hash : String := ""
  file_name : String := ""
  ext : String := ""
  size : ℤ := 0
  mtime : ℤ := 0
  width : Option ℤ := none
  height : Option ℤ := none
  make : Option String := none
  model : Option String := none
  lens : Option String := none
  date_taken : Option ℤ := none
  iso : Option ℤ := none
  fnumber : Option ℚ := none
  focal_length : Option ℚ := none
  exposure_time : Option ℚ := none
  exposure_comp : Option ℚ := none
  gps_lat : Option ℚ := none
  gps_lng : Option ℚ := none
  thumb_path : Option String := none
  preview_path : Option String := none
  dhash : Option ℤ := none
  rating : Option ℤ := none
  picked : Bool := false
  rejected : Bool := false
  last_modified : Option ℤ := none
  import_batch_id : Option String := none
  created_at : Option ℤ := none
  updated_at : Option ℤ := none
deriving DecidableEq

/-- Row of the photos table (src/schema.rs, migration 0001 plus the cull
columns of migration 0003). -/
structure PhotoRow where
  id : ℤ
  path : String
  hash : String := ""
  file_name : String := ""
  ext : String := ""
  size : ℤ := 0
  mtime : ℤ := 0
  width : Option ℤ := none
  height : Option ℤ := none
  make : Option String := none
  model : Option String := none
  lens : Option String := none
  date_taken : Option ℤ := none
  iso : Option ℤ := none
  fnumber : Option ℚ := none
  focal_length : Option ℚ := none
  exposure_time : Option ℚ := none
  exposure_comp : Option ℚ := none
  gps_lat : Option ℚ := none
  gps_lng : Option ℚ := none
  thumb_path : Option String := none
  preview_path : Option String := none
  created_at : ℤ := 0
  updated_at : ℤ := 0
  rating : Option ℤ := none
  picked : Bool := false
  rejected : Bool := false
  last_modified : Option ℤ := none
  import_batch_id : Option String := none
deriving DecidableEq

/-- Photos table state: rows plus the AUTOINCREMENT counter. -/
structure PhotoDb where
  rows : List PhotoRow
  nextId : ℤ
deriving DecidableEq

/-- Conflict update of `upsert_photo` (`ON CONFLICT(path) DO UPDATE SET`):
the 20 data columns plus `updated_at` and `last_modified`; `import_batch_id`,
`created_at` and the cull columns keep their prior values. -/
def upsertConflictUpdate (now : ℤ) (photo : PhotoRecord) (q : PhotoRow) :
    PhotoRow :=
  { q with
    hash := photo.hash
    file_name := photo.file_name
    ext := photo.ext
    size := photo.size
    mtime := photo.mtime
    width := photo.width
    height := photo.height
    make := photo.make
    model := photo.model
    lens := photo.lens
    date_taken := photo.date_taken
    iso := photo.iso
    fnumber := photo.fnumber
    focal_length := photo.focal_length
    exposure_time := photo.exposure_time
    exposure_comp := photo.exposure_comp
    gps_lat := photo.gps_lat
    gps_lng := photo.gps_lng
    thumb_path := photo.thumb_path
    preview_path := photo.preview_path
    updated_at := now
    last_modified := some now }

/-- Fresh row inserted by `upsert_photo`: the columns of the INSERT list;
the cull columns take the table defaults (NULL / 0 / 0). -/
def upsertFreshRow (now rowId : ℤ) (photo : PhotoRecord) : PhotoRow :=
  { id := rowId
    path := photo.path
    hash := photo.hash
    file_name := photo.file_name
    ext := photo.ext
    size := photo.size
    mtime := photo.mtime
    width := photo.width
    height := photo.height
    make := photo.make
    model := photo.model
    lens := photo.lens
    date_taken := photo.date_taken
    iso := photo.iso
    fnumber := photo.fnumber
    focal_length := photo.focal_length
    exposure_time := photo.exposure_time
    exposure_comp := photo.exposure_comp
    gps_lat := photo.gps_lat
    gps_lng := photo.gps_lng
    thumb_path := photo.thumb_path
    preview_path := photo.preview_path
    created_at := now
    updated_at := now
    rating := none
    picked := false
    rejected := false
    last_modified := some now
    import_batch_id := photo.import_batch_id }

/-- Upsert of a photo record (src/db.rs, `upsert_photo`).  First query id,
mtime and size of the row with the record's path; if mtime and size are
unchanged, set only `updated_at` and return the existing id.  Otherwise run
`INSERT .. ON CONFLICT(path) DO UPDATE`: the conflict update writes the 20
data columns listed in the statement plus `updated_at`/`last_modified` (not
`import_batch_id`, `created_at` or the cull columns, and the table has no
`dhash` column); a fresh insert additionally writes `import_batch_id` and
`created_at` and leaves the cull columns at their defaults.  The final
`SELECT id WHERE path` returns the id of the (unique-by-path) row. -/
def upsert_photo (now : ℤ) (db : PhotoDb) (photo : PhotoRecord) :
    PhotoDb × ℤ :=
  match db.rows.find? (fun r => r.path = photo.path) with
  | some r =>
    if r.mtime = photo.mtime ∧ r.size = photo.size then
      ({ db with rows := db.rows.map (fun q =>
          if q.id = r.id then { q with updated_at := now } else q) }, r.id)
    else
      ({ db with rows := db.rows.map (fun q =>
          if q.path = photo.path then upsertConflictUpdate now photo q
          else q) }, r.id)
  | none =>
    ({ rows := db.rows ++ [upsertFreshRow now db.nextId photo]
       nextId := db.nextId + 1 }, db.nextId)

/-- Row of the tags table (src/schema.rs, migration 0001;
UNIQUE (photo_id, tag)). -/
structure TagRow where
  id : ℤ
  photo_id : ℤ
  tag : String
  confidence : Option ℚ := none
  source : String := "auto"
  locked : Bool := false
  created_at : ℤ := 0
deriving DecidableEq

/-- Tags table state: rows plus the AUTOINCREMENT counter. -/
structure TagDb where
  rows : List TagRow
  nextId : ℤ
deriving DecidableEq

/-- Auto tag row inserted by `replace_auto_tags`. -/
def autoTagRow (now rowId pid : ℤ) (p : String × ℚ) : TagRow :=
  { id := rowId
    photo_id := pid
    tag := p.1
    confidence := some p.2
    source := "auto"
    locked := false
    created_at := now }

/-- One `INSERT OR IGNORE` of the `replace_auto_tags` loop: skip the pair
when a (photo_id, tag) row already exists, otherwise append the auto row. -/
def replaceAutoStep (now pid : ℤ) (acc : TagDb) (p : String × ℚ) : TagDb :=
  if acc.rows.any (fun r => r.photo_id = pid ∧ r.tag = p.1) then acc
  else { rows := acc.rows ++ [autoTagRow now acc.nextId pid p]
         nextId := acc.nextId + 1 }

/-- State after the DELETE of `replace_auto_tags`: every row of the photo
with `source = 'auto' AND locked = 0` removed. -/
def replaceAutoInit (db : TagDb) (pid : ℤ) : TagDb :=
  { rows := db.rows.filter (fun r =>
      ¬(r.photo_id = pid ∧ r.source = "auto" ∧ r.locked = false))
    nextId := db.nextId }

/-- Replacement of automatic tags (src/db.rs, `replace_auto_tags`): if the
new tag map is empty, return immediately; otherwise delete every row of the
photo with `source = 'auto' AND locked = 0`, then `INSERT OR IGNORE` each
(tag, confidence) pair as an auto, unlocked row — the insert is ignored when
a row with the same (photo_id, tag) already exists. -/
def replace_auto_tags (now : ℤ) (db : TagDb) (photo_id : ℤ)
    (tags : List (String × ℚ)) : TagDb :=
  if tags.isEmpty then db
  else tags.foldl (replaceAutoStep now photo_id) (replaceAutoInit db photo_id)

/-- Manual tag row written by `add_manual_tag`: confidence 1.0, source
'manual', locked. -/
def manualTagRow (now rowId pid : ℤ) (tag : String) : TagRow :=
  { id := rowId
    photo_id := pid
    tag := tag
    confidence := some 1
    source := "manual"
    locked := true
    created_at := now }

/-- Addition of a manual tag (src/db.rs, `add_manual_tag`):
`INSERT OR REPLACE` with the id subselected from the existing
(photo_id, tag) row; the new row has confidence 1.0, source 'manual',
locked 1 and a fresh `created_at`.  When a (photo_id, tag) row exists the
REPLACE removes it and the new row reuses its id; otherwise a fresh id is
assigned. -/
def add_manual_tag (now : ℤ) (db : TagDb) (photo_id : ℤ) (tag : String) :
    TagDb :=
  match db.rows.find? (fun r => r.photo_id = photo_id ∧ r.tag = tag) with
  | some r =>
    { db with rows := (db.rows.filter (fun q =>
        ¬(q.photo_id = photo_id ∧ q.tag = tag)))
        ++ [manualTagRow now r.id photo_id tag] }
  | none =>
    { rows := db.rows ++ [manualTagRow now db.nextId photo_id tag]
      nextId := db.nextId + 1 }

/-- Update applied by `batch_update_cull` to each listed row: the provided
cull columns plus `last_modified`. -/
def cullUpdateRow (now : ℤ) (rating : Option (Option ℤ))
    (picked : Option Bool) (rejected : Option Bool) (r : PhotoRow) : PhotoRow :=
  { r with
    rating := rating.getD r.rating
    picked := picked.getD r.picked
    rejected := rejected.getD r.rejected
    last_modified := some now }

/-- Batch cull update (src/db.rs, `batch_update_cull`): empty id list returns
0; if none of rating/picked/rejected is provided (`sets` stays empty besides
`last_modified`) the function returns 0 without running an UPDATE; otherwise
one UPDATE sets exactly the provided columns plus `last_modified` on every
row whose id is in the list, and the affected row count is returned. -/
def batch_update_cull (now : ℤ) (db : PhotoDb) (photo_ids : List ℤ)
    (rating : Option (Option ℤ)) (picked : Option Bool)
    (rejected : Option Bool) : PhotoDb × ℕ :=
  if photo_ids.isEmpty then (db, 0)
  else if rating = none ∧ picked = none ∧ rejected = none then (db, 0)
  else
    ({ rows := db.rows.map (fun r =>
         if r.id ∈ photo_ids then cullUpdateRow now rating picked rejected r
         else r)
       nextId := db.nextId },
      db.rows.countP (fun r => r.id ∈ photo_ids))

theorem find?_key_eq {α β : Type} [DecidableEq β] (key : α → β) (l : List α)
    (r : α) (k : β) (hnd : (l.map key).Nodup) (hr : r ∈ l) (hk : key r = k) :
    l.find? (fun q => key q = k) = some r := by
  induction l with
  | nil => cases hr
  | cons a l ih =>
    rcases List.mem_cons.mp hr with h | h
    · rw [List.find?_cons_of_pos _ (by rw [h] at hk; simpa using hk), h]
    · have hka : ¬(key a = k) := by
        intro hak
        have hmem : k ∈ l.map key := by
          rw [← hk]
          exact List.mem_map_of_mem key h
        rw [← hak] at hmem
        exact (List.nodup_cons.mp (by simpa using hnd)).1 hmem
      rw [List.find?_cons_of_neg _ (by simpa using hka)]
      exact ih (by simpa using (List.nodup_cons.mp (by simpa using hnd)).2) h

/-- The 20 data columns of the `upsert_photo` INSERT / conflict-UPDATE list
agree with the record. -/
def dataColumnsMatch (photo : PhotoRecord) (r : PhotoRow) : Prop :=
  r.hash = photo.hash ∧ r.file_name = photo.file_name ∧ r.ext = photo.ext ∧
  r.size = photo.size ∧ r.mtime = photo.mtime ∧ r.width = photo.width ∧
  r.height = photo.height ∧ r.make = photo.make ∧ r.model = photo.model ∧
  r.lens = photo.lens ∧ r.date_taken = photo.date_taken ∧ r.iso = photo.iso ∧
  r.fnumber = photo.fnumber ∧ r.focal_length = photo.focal_length ∧
  r.exposure_time = photo.exposure_time ∧
  r.exposure_comp = photo.exposure_comp ∧ r.gps_lat = photo.gps_lat ∧
  r.gps_lng = photo.gps_lng ∧ r.thumb_path = photo.thumb_path ∧
  r.preview_path = photo.preview_path

/-- Claim C1 (amended): on an unchanged (mtime, size) match only `updated_at`
of the matching row changes and its id is returned; otherwise the 20 data
columns of the record are written via the insert-or-update keyed on path
uniqueness and `updated_at`/`last_modified` are refreshed, but on the
conflict-update path `import_batch_id`, `created_at`, `rating`, `picked` and
`rejected` keep their prior values, on the fresh-insert path the cull columns
take the table defaults, and the record's `dhash` is never written (the
photos table has no such column); the row id is returned in every case. -/
theorem upsert_photo_spec (now : ℤ) (db : PhotoDb) (photo : PhotoRecord)
    (hpaths : (db.rows.map (fun r => r.path)).Nodup) :
    (∀ r ∈ db.rows, r.path = photo.path →
      r.mtime = photo.mtime → r.size = photo.size →
      (upsert_photo now db photo).2 = r.id ∧
      (upsert_photo now db photo).1.rows
        = db.rows.map (fun q =>
            if q.id = r.id then { q with updated_at := now } else q) ∧
      (upsert_photo now db photo).1.nextId = db.nextId) ∧
    (∀ r ∈ db.rows, r.path = photo.path →
      ¬(r.mtime = photo.mtime ∧ r.size = photo.size) →
      (upsert_photo now db photo).2 = r.id ∧
      (∃ r' ∈ (upsert_photo now db photo).1.rows,
        r'.path = photo.path ∧ dataColumnsMatch photo r' ∧
        r'.updated_at = now ∧ r'.last_modified = some now ∧
        r'.id = r.id ∧ r'.created_at = r.created_at ∧
        r'.import_batch_id = r.import_batch_id ∧ r'.rating = r.rating ∧
        r'.picked = r.picked ∧ r'.rejected = r.rejected) ∧
      (∀ q ∈ db.rows, q.path ≠ photo.path →
        q ∈ (upsert_photo now db photo).1.rows) ∧
      (upsert_photo now db photo).1.rows.length = db.rows.length) ∧
    ((∀ r ∈ db.rows, r.path ≠ photo.path) →
      (upsert_photo now db photo).2 = db.nextId ∧
      (∃ r' ∈ (upsert_photo now db photo).1.rows,
        r'.id = db.nextId ∧ r'.path = photo.path ∧ dataColumnsMatch photo r' ∧
        r'.created_at = now ∧ r'.updated_at = now ∧
        r'.last_modified = some now ∧
        r'.import_batch_id = photo.import_batch_id ∧ r'.rating = none ∧
        r'.picked = false ∧ r'.rejected = false) ∧
      (∀ q ∈ db.rows, q ∈ (upsert_photo now db photo).1.rows) ∧
      (upsert_photo now db photo).1.rows.length = db.rows.length + 1 ∧
      (upsert_photo now db photo).1.nextId = db.nextId + 1) := by
  refine ⟨?_, ?_, ?_⟩
  · intro r hr hpath hm hs
    have hfind : db.rows.find? (fun q => q.path = photo.path) = some r :=
      find?_key_eq (fun q => q.path) db.rows r photo.path hpaths hr hpath
    rw [upsert_photo, hfind]
    dsimp only
    rw [if_pos ⟨hm, hs⟩]
    exact ⟨rfl, rfl, rfl⟩
  · intro r hr hpath hdiff
    have hfind : db.rows.find? (fun q => q.path = photo.path) = some r :=
      find?_key_eq (fun q => q.path) db.rows r photo.path hpaths hr hpath
    rw [upsert_photo, hfind]
    dsimp only
    rw [if_neg hdiff]
    refine ⟨rfl, ⟨upsertConflictUpdate now photo r, ?_, ?_⟩, ?_, by simp⟩
    · exact List.mem_map.mpr ⟨r, hr, by rw [if_pos hpath]⟩
    · exact ⟨hpath,
        ⟨rfl, rfl, rfl, rfl, rfl, rfl, rfl, rfl, rfl, rfl, rfl, rfl, rfl,
          rfl, rfl, rfl, rfl, rfl, rfl, rfl⟩,
        rfl, rfl, rfl, rfl, rfl, rfl, rfl, rfl⟩
    · intro q hq hqpath
      exact List.mem_map.mpr ⟨q, hq, by rw [if_neg hqpath]⟩
  · intro hnone
    have hfind : db.rows.find? (fun q => q.path = photo.path) = none := by
      rw [List.find?_eq_none]
      intro x hx
      simpa using hnone x hx
    rw [upsert_photo, hfind]
    dsimp only
    refine ⟨rfl, ⟨upsertFreshRow now db.nextId photo,
      List.mem_append_right _ (List.mem_singleton.mpr rfl), ?_⟩,
      fun q hq => List.mem_append_left _ hq, by simp, rfl⟩
    rw [upsertFreshRow, dataColumnsMatch]
    exact ⟨rfl, rfl, ⟨rfl, rfl, rfl, rfl, rfl, rfl, rfl, rfl, rfl, rfl, rfl,
      rfl, rfl, rfl, rfl, rfl, rfl, rfl, rfl, rfl⟩, rfl, rfl, rfl, rfl, rfl,
      rfl, rfl⟩

/-- Row with path "/a.jpg", import batch "A" and default cull state. -/
def upsertRowA : PhotoRow :=
  { id := 1
    path := "/a.jpg"
    size := 100
    mtime := 1
    import_batch_id := some "A" }

/-- Table holding only `upsertRowA`. -/
def upsertDbA : PhotoDb := { rows := [upsertRowA], nextId := 2 }

/-- Record for the same path with changed mtime, import batch "B", a dHash
and picked set. -/
def upsertRecB : PhotoRecord :=
  { path := "/a.jpg"
    size := 100
    mtime := 2
    dhash := some 5
    picked := true
    import_batch_id := some "B" }

/-- Counterexample to claim C1 as stated: upserting a record whose
(mtime, size) changed over an existing row does not write all columns of the
record — the stored row keeps import batch "A" and picked = false although
the record carries import batch "B" and picked = true (and the record's
dhash has no column to go to). -/
theorem upsert_photo_counterexample :
    ((upsert_photo 10 upsertDbA upsertRecB).1.rows.map
        (fun r => (r.import_batch_id, r.picked))) = [(some "A", false)] ∧
    upsertRecB.import_batch_id = some "B" ∧ upsertRecB.picked = true := by
  decide

/-- Witness for claim C1 at the concrete table `upsertDbA` and record
`upsertRecB` (conflict-update branch): the existing row id 1 is returned. -/
theorem upsert_photo_spec_witness :
    (upsert_photo 10 upsertDbA upsertRecB).2 = 1 := by
  have h := upsert_photo_spec 10 upsertDbA upsertRecB (by decide)
  exact (h.2.1 upsertRowA (by decide) (by decide) (by decide)).1

theorem replaceAuto_loop_extends (now pid : ℤ) (tags : List (String × ℚ)) :
    ∀ acc : TagDb, ∃ suf : List TagRow,
      (tags.foldl (replaceAutoStep now pid) acc).rows = acc.rows ++ suf ∧
      (∀ r ∈ suf, r.photo_id = pid ∧ r.source = "auto" ∧ r.locked = false ∧
        r.created_at = now ∧ acc.nextId ≤ r.id) ∧
      acc.nextId ≤ (tags.foldl (replaceAutoStep now pid) acc).nextId := by
  induction tags with
  | nil => intro acc; exact ⟨[], by simp, by simp, le_refl _⟩
  | cons p tags ih =>
    intro acc
    by_cases hany : acc.rows.any (fun r => r.photo_id = pid ∧ r.tag = p.1)
    · have hstep : replaceAutoStep now pid acc p = acc := by
        rw [replaceAutoStep, if_pos hany]
      rw [List.foldl_cons, hstep]
      exact ih acc
    · have hstep : replaceAutoStep now pid acc p
          = { rows := acc.rows ++ [autoTagRow now acc.nextId pid p]
              nextId := acc.nextId + 1 } := by
        rw [replaceAutoStep, if_neg hany]
      rw [List.foldl_cons, hstep]
      obtain ⟨suf, hrows, hprops, hnext⟩ :=
        ih { rows := acc.rows ++ [autoTagRow now acc.nextId pid p]
             nextId := acc.nextId + 1 }
      refine ⟨autoTagRow now acc.nextId pid p :: suf, ?_, ?_, ?_⟩
      · rw [hrows]
        simp
      · intro r hr
        rcases List.mem_cons.mp hr with h | h
        · subst h
          exact ⟨rfl, rfl, rfl, rfl, le_refl _⟩
        · obtain ⟨h1, h2, h3, h4, h5⟩ := hprops r h
          exact ⟨h1, h2, h3, h4, by
            have : (acc.nextId + 1 : ℤ) ≤ r.id := h5
            omega⟩
      · have : (acc.nextId : ℤ) ≤ acc.nextId + 1 := by omega
        exact le_trans this hnext

theorem replaceAuto_loop_mem (now pid : ℤ) (tags : List (String × ℚ)) :
    ∀ acc : TagDb, ∀ p ∈ tags,
      ∃ r ∈ (tags.foldl (replaceAutoStep now pid) acc).rows,
        r.photo_id = pid ∧ r.tag = p.1 := by
  induction tags with
  | nil => intro acc p hp; cases hp
  | cons q tags ih =>
    intro acc p hp
    rcases List.mem_cons.mp hp with h | h
    · subst h
      by_cases hany : acc.rows.any (fun r => r.photo_id = pid ∧ r.tag = p.1)
      · obtain ⟨r, hr, hpred⟩ := List.any_eq_true.mp hany
        simp only [decide_eq_true_eq] at hpred
        have hstep : replaceAutoStep now pid acc p = acc := by
          rw [replaceAutoStep, if_pos hany]
        rw [List.foldl_cons, hstep]
        obtain ⟨suf, hrows, _, _⟩ := replaceAuto_loop_extends now pid tags acc
        exact ⟨r, by rw [hrows]; exact List.mem_append_left _ hr, hpred⟩
      · have hstep : replaceAutoStep now pid acc p
            = { rows := acc.rows ++ [autoTagRow now acc.nextId pid p]
                nextId := acc.nextId + 1 } := by
          rw [replaceAutoStep, if_neg hany]
        rw [List.foldl_cons, hstep]
        obtain ⟨suf, hrows, _, _⟩ := replaceAuto_loop_extends now pid tags
          { rows := acc.rows ++ [autoTagRow now acc.nextId pid p]
            nextId := acc.nextId + 1 }
        refine ⟨autoTagRow now acc.nextId pid p, ?_, rfl, rfl⟩
        rw [hrows]
        exact List.mem_append_left _ (List.mem_append_right _
          (List.mem_singleton.mpr rfl))
    · exact ih (replaceAutoStep now pid acc q) p h

theorem replaceAuto_loop_fresh (now pid : ℤ) (tags : List (String × ℚ)) :
    ∀ acc : TagDb, (tags.map Prod.fst).Nodup → ∀ p ∈ tags,
      (¬∃ q ∈ acc.rows, q.photo_id = pid ∧ q.tag = p.1) →
      ∃ r ∈ (tags.foldl (replaceAutoStep now pid) acc).rows,
        r.photo_id = pid ∧ r.tag = p.1 ∧ r.confidence = some p.2 ∧
        r.source = "auto" ∧ r.locked = false ∧ r.created_at = now := by
  induction tags with
  | nil => intro acc _ p hp; cases hp
  | cons q tags ih =>
    intro acc hnd p hp hnone
    have hndtail : (tags.map Prod.fst).Nodup :=
      (List.nodup_cons.mp (by simpa using hnd)).2
    rcases List.mem_cons.mp hp with h | h
    · subst h
      have hany : ¬(acc.rows.any (fun r => r.photo_id = pid ∧ r.tag = p.1)
          = true) := by
        intro hany
        obtain ⟨r, hr, hpred⟩ := List.any_eq_true.mp hany
        simp only [decide_eq_true_eq] at hpred
        exact hnone ⟨r, hr, hpred⟩
      have hstep : replaceAutoStep now pid acc p
          = { rows := acc.rows ++ [autoTagRow now acc.nextId pid p]
              nextId := acc.nextId + 1 } := by
        rw [replaceAutoStep, if_neg hany]
      rw [List.foldl_cons, hstep]
      obtain ⟨suf, hrows, _, _⟩ := replaceAuto_loop_extends now pid tags
        { rows := acc.rows ++ [autoTagRow now acc.nextId pid p]
          nextId := acc.nextId + 1 }
      refine ⟨autoTagRow now acc.nextId pid p, ?_, rfl, rfl, rfl, rfl, rfl, rfl⟩
      rw [hrows]
      exact List.mem_append_left _ (List.mem_append_right _
        (List.mem_singleton.mpr rfl))
    · have hq1 : ¬(p.1 = q.1) := by
        intro heq
        have : q.1 ∈ tags.map Prod.fst := by
          rw [← heq]
          exact List.mem_map_of_mem Prod.fst h
        exact (List.nodup_cons.mp (by simpa using hnd)).1 this
      have hnone' : ¬∃ q' ∈ (replaceAutoStep now pid acc q).rows,
          q'.photo_id = pid ∧ q'.tag = p.1 := by
        intro ⟨q', hq', hpred⟩
        by_cases hany : acc.rows.any (fun r => r.photo_id = pid ∧ r.tag = q.1)
        · rw [replaceAutoStep, if_pos hany] at hq'
          exact hnone ⟨q', hq', hpred⟩
        · rw [replaceAutoStep, if_neg hany] at hq'
          rcases List.mem_append.mp hq' with hmem | hmem
          · exact hnone ⟨q', hmem, hpred⟩
          · have : q' = autoTagRow now acc.nextId pid q :=
              List.mem_singleton.mp hmem
            subst this
            exact hq1 hpred.2.symm
      exact ih (replaceAutoStep now pid acc q) hndtail p h hnone'

theorem replaceAuto_loop_no_new_dup (now pid : ℤ) (tags : List (String × ℚ)) :
    ∀ acc : TagDb, ∀ t : String,
      (∃ q ∈ acc.rows, q.photo_id = pid ∧ q.tag = t) →
      ∀ r ∈ (tags.foldl (replaceAutoStep now pid) acc).rows,
        r.photo_id = pid → r.tag = t → r ∈ acc.rows := by
  induction tags with
  | nil => intro acc t _ r hr _ _; exact hr
  | cons p tags ih =>
    intro acc t hex r hr hrp hrt
    by_cases hany : acc.rows.any (fun q => q.photo_id = pid ∧ q.tag = p.1)
    · have hstep : replaceAutoStep now pid acc p = acc := by
        rw [replaceAutoStep, if_pos hany]
      rw [List.foldl_cons, hstep] at hr
      exact ih acc t hex r hr hrp hrt
    · have hp1 : ¬(p.1 = t) := by
        intro heq
        obtain ⟨q, hq, hpred⟩ := hex
        apply hany
        rw [List.any_eq_true]
        exact ⟨q, hq, by simp [hpred.1, hpred.2, heq]⟩
      have hstep : replaceAutoStep now pid acc p
          = { rows := acc.rows ++ [autoTagRow now acc.nextId pid p]
              nextId := acc.nextId + 1 } := by
        rw [replaceAutoStep, if_neg hany]
      rw [List.foldl_cons] at hr
      obtain ⟨q, hq, hpred⟩ := hex
      have hex' : ∃ q' ∈ (replaceAutoStep now pid acc p).rows,
          q'.photo_id = pid ∧ q'.tag = t := by
        rw [hstep]
        exact ⟨q, List.mem_append_left _ hq, hpred⟩
      have hmem := ih (replaceAutoStep now pid acc p) t hex' r hr hrp hrt
      rw [hstep] at hmem
      rcases List.mem_append.mp hmem with hmem' | hmem'
      · exact hmem'
      · have heq : r = autoTagRow now acc.nextId pid p :=
          List.mem_singleton.mp hmem'
        subst heq
        exact absurd hrt hp1

/-- Claim C2 (amended): for a non-empty tag map, `replace_auto_tags` deletes
every tag row of the photo with source 'auto' and locked 0, keeps every other
row, and inserts the new (tag, confidence) pairs with source 'auto' and
locked 0 — skipping any pair whose tag name already exists for that photo
(such as a manual tag); with the empty map the call returns immediately and
leaves the table unchanged. -/
theorem replace_auto_tags_spec (now : ℤ) (db : TagDb) (pid : ℤ)
    (tags : List (String × ℚ)) (hne : tags ≠ [])
    (hkeys : (tags.map Prod.fst).Nodup)
    (hinv : ∀ r ∈ db.rows, r.id < db.nextId) :
    (∀ r ∈ db.rows, r.photo_id = pid → r.source = "auto" → r.locked = false →
      ¬(r ∈ (replace_auto_tags now db pid tags).rows)) ∧
    (∀ r ∈ db.rows, ¬(r.photo_id = pid ∧ r.source = "auto" ∧ r.locked = false) →
      r ∈ (replace_auto_tags now db pid tags).rows) ∧
    (∀ p ∈ tags, ∃ r ∈ (replace_auto_tags now db pid tags).rows,
      r.photo_id = pid ∧ r.tag = p.1) ∧
    (∀ p ∈ tags,
      (¬∃ q ∈ db.rows, q.photo_id = pid ∧ q.tag = p.1 ∧
        ¬(q.source = "auto" ∧ q.locked = false)) →
      ∃ r ∈ (replace_auto_tags now db pid tags).rows,
        r.photo_id = pid ∧ r.tag = p.1 ∧ r.confidence = some p.2 ∧
        r.source = "auto" ∧ r.locked = false ∧ r.created_at = now) ∧
    (∀ p ∈ tags, ∀ q ∈ db.rows,
      q.photo_id = pid → q.tag = p.1 → ¬(q.source = "auto" ∧ q.locked = false) →
      ∀ r ∈ (replace_auto_tags now db pid tags).rows,
        r.photo_id = pid → r.tag = p.1 → r ∈ db.rows) := by
  have hrw : replace_auto_tags now db pid tags
      = tags.foldl (replaceAutoStep now pid) (replaceAutoInit db pid) := by
    rw [replace_auto_tags, if_neg (by simpa using hne)]
  obtain ⟨suf, hrows, hsuf, _⟩ :=
    replaceAuto_loop_extends now pid tags (replaceAutoInit db pid)
  refine ⟨?_, ?_, ?_, ?_, ?_⟩
  · intro r hr hrp hrs hrl hmem
    rw [hrw, hrows] at hmem
    rcases List.mem_append.mp hmem with hmem' | hmem'
    · have := (List.mem_filter.mp hmem').2
      simp only [decide_eq_true_eq] at this
      exact this ⟨hrp, hrs, hrl⟩
    · have hid := (hsuf r hmem').2.2.2.2
      have hge : (db.nextId : ℤ) ≤ r.id := hid
      have := hinv r hr
      omega
  · intro r hr hnot
    rw [hrw, hrows]
    apply List.mem_append_left
    show r ∈ (db.rows.filter (fun r =>
      ¬(r.photo_id = pid ∧ r.source = "auto" ∧ r.locked = false)))
    exact List.mem_filter.mpr ⟨hr, by
      simp only [decide_eq_true_eq]
      exact hnot⟩
  · intro p hp
    rw [hrw]
    exact replaceAuto_loop_mem now pid tags _ p hp
  · intro p hp hnone
    rw [hrw]
    apply replaceAuto_loop_fresh now pid tags _ hkeys p hp
    intro ⟨q, hq, hpred⟩
    have hqdb := (List.mem_filter.mp hq).1
    have hqkeep := (List.mem_filter.mp hq).2
    simp only [decide_eq_true_eq] at hqkeep
    apply hnone
    refine ⟨q, hqdb, hpred.1, hpred.2, ?_⟩
    intro ⟨hs, hl⟩
    exact hqkeep ⟨hpred.1, hs, hl⟩
  · intro p hp q hq hqp hqt hqkeep r hr hrp hrt
    rw [hrw] at hr
    have hex : ∃ q' ∈ (replaceAutoInit db pid).rows,
        q'.photo_id = pid ∧ q'.tag = p.1 := by
      refine ⟨q, ?_, hqp, hqt⟩
      exact List.mem_filter.mpr ⟨hq, by
        simp only [decide_eq_true_eq]
        intro ⟨_, hs, hl⟩
        exact hqkeep ⟨hs, hl⟩⟩
    have hkept := replaceAuto_loop_no_new_dup now pid tags _ p.1 hex r hr hrp hrt
    exact (List.mem_filter.mp hkept).1

/-- Tag table holding one automatic, unlocked tag "tree" for photo 7. -/
def replaceDb0 : TagDb := { rows := [autoTagRow 0 1 7 ("tree", 1)], nextId := 2 }

/-- Counterexample to claim C2 as stated: with the empty tag map,
`replace_auto_tags` performs no deletion at all — the automatic unlocked row
of the photo is still present afterwards, although the claim requires every
such row to be deleted first even for the empty map. -/
theorem replace_auto_tags_empty_map_counterexample :
    replace_auto_tags 10 replaceDb0 7 [] = replaceDb0 ∧
    autoTagRow 0 1 7 ("tree", 1) ∈ replaceDb0.rows ∧
    (autoTagRow 0 1 7 ("tree", 1)).photo_id = 7 ∧
    (autoTagRow 0 1 7 ("tree", 1)).source = "auto" ∧
    (autoTagRow 0 1 7 ("tree", 1)).locked = false := by
  refine ⟨rfl, ?_, rfl, rfl, rfl⟩
  exact List.mem_singleton.mpr rfl

/-- Witness for claim C2 at the concrete table `replaceDb0` and the
single-pair map [("sky", 1)]: the new pair is present afterwards. -/
theorem replace_auto_tags_spec_witness :
    ∃ r ∈ (replace_auto_tags 10 replaceDb0 7 [("sky", 1)]).rows,
      r.photo_id = 7 ∧ r.tag = "sky" := by
  have h := replace_auto_tags_spec 10 replaceDb0 7 [("sky", 1)]
    (by simp) (by simp) (by
      intro r hr
      rw [replaceDb0] at hr
      have : r = autoTagRow 0 1 7 ("tree", 1) := by simpa using hr
      rw [this]
      show (1 : ℤ) < 2
      norm_num)
  exact h.2.2.1 ("sky", 1) (List.mem_singleton.mpr rfl)

theorem replace_auto_tags_keeps_manual (now : ℤ) (db : TagDb) (pid : ℤ)
    (tags : List (String × ℚ)) (r : TagRow) (hr : r ∈ db.rows)
    (hs : ¬(r.source = "auto")) :
    r ∈ (replace_auto_tags now db pid tags).rows := by
  by_cases hempty : tags.isEmpty
  · rw [replace_auto_tags, if_pos hempty]
    exact hr
  · rw [replace_auto_tags, if_neg hempty]
    obtain ⟨suf, hrows, _, _⟩ :=
      replaceAuto_loop_extends now pid tags (replaceAutoInit db pid)
    rw [hrows]
    apply List.mem_append_left
    show r ∈ (replaceAutoInit db pid).rows
    exact List.mem_filter.mpr ⟨hr, by
      simp only [decide_eq_true_eq]
      intro ⟨_, hs', _⟩
      exact hs hs'⟩

theorem countP_filter_not_pred {α : Type} (l : List α) (p : α → Bool) :
    (l.filter (fun x => ¬(p x = true))).countP p = 0 := by
  rw [List.countP_eq_zero]
  intro x hx
  have := (List.mem_filter.mp hx).2
  simpa using this

/-- Claim C3 (amended): `add_manual_tag` creates the tag with source
'manual', locked and confidence 1.0; the manual tag survives any subsequent
`replace_auto_tags` on the photo; and a second identical `add_manual_tag`
creates no duplicate row — it leaves the table exactly as if only the second
call had run, i.e. the single (photo_id, tag) row keeps its id and only its
`created_at` is refreshed to the second call's timestamp. -/
theorem add_manual_tag_spec (now now2 : ℤ) (db : TagDb) (pid : ℤ)
    (tag : String) (tags : List (String × ℚ)) :
    (∃ r ∈ (add_manual_tag now db pid tag).rows,
      r.photo_id = pid ∧ r.tag = tag ∧ r.confidence = some 1 ∧
      r.source = "manual" ∧ r.locked = true ∧ r.created_at = now) ∧
    (∃ r ∈ (replace_auto_tags now2 (add_manual_tag now db pid tag) pid
        tags).rows,
      r.photo_id = pid ∧ r.tag = tag ∧ r.confidence = some 1 ∧
      r.source = "manual" ∧ r.locked = true) ∧
    ((add_manual_tag now db pid tag).rows.countP
      (fun r => r.photo_id = pid ∧ r.tag = tag) = 1) ∧
    (add_manual_tag now2 (add_manual_tag now db pid tag) pid tag
      = add_manual_tag now2 db pid tag) := by
  have hmem : ∀ m : ℤ, ∃ rid : ℤ,
      (add_manual_tag m db pid tag).rows
        = (add_manual_tag m db pid tag).rows ∧
      manualTagRow m rid pid tag ∈ (add_manual_tag m db pid tag).rows := by
    intro m
    rcases hfind : db.rows.find? (fun r => r.photo_id = pid ∧ r.tag = tag)
      with _ | r
    · refine ⟨db.nextId, rfl, ?_⟩
      rw [add_manual_tag, hfind]
      exact List.mem_append_right _ (List.mem_singleton.mpr rfl)
    · refine ⟨r.id, rfl, ?_⟩
      rw [add_manual_tag, hfind]
      exact List.mem_append_right _ (List.mem_singleton.mpr rfl)
  obtain ⟨rid, _, hrowmem⟩ := hmem now
  refine ⟨⟨manualTagRow now rid pid tag, hrowmem, rfl, rfl, rfl, rfl, rfl, rfl⟩,
    ?_, ?_, ?_⟩
  · refine ⟨manualTagRow now rid pid tag, ?_, rfl, rfl, rfl, rfl, rfl⟩
    exact replace_auto_tags_keeps_manual now2 _ pid tags _ hrowmem
      (by intro h; simp [manualTagRow] at h)
  · rcases hfind : db.rows.find? (fun r => r.photo_id = pid ∧ r.tag = tag)
      with _ | r
    · rw [add_manual_tag, hfind]
      have hall := List.find?_eq_none.mp hfind
      rw [List.countP_append]
      have h0 : db.rows.countP (fun r => r.photo_id = pid ∧ r.tag = tag) = 0 := by
        rw [List.countP_eq_zero]
        intro x hx
        exact hall x hx
      rw [h0]
      simp [List.countP_cons, manualTagRow]
    · rw [add_manual_tag, hfind]
      rw [List.countP_append]
      have h0 : (db.rows.filter (fun q =>
          ¬(q.photo_id = pid ∧ q.tag = tag))).countP
          (fun r => r.photo_id = pid ∧ r.tag = tag) = 0 := by
        rw [List.countP_eq_zero]
        intro x hx
        have hx' := (List.mem_filter.mp hx).2
        simp only [decide_eq_true_eq] at hx' ⊢
        exact hx'
      rw [h0]
      simp [List.countP_cons, manualTagRow]
  · rcases hfind : db.rows.find? (fun r => r.photo_id = pid ∧ r.tag = tag)
      with _ | r
    · have hall := List.find?_eq_none.mp hfind
      have hinner : add_manual_tag now db pid tag
          = (⟨db.rows ++ [manualTagRow now db.nextId pid tag],
              db.nextId + 1⟩ : TagDb) := by
        rw [add_manual_tag, hfind]
      have hfind2 : (db.rows ++ [manualTagRow now db.nextId pid tag]).find?
          (fun r => r.photo_id = pid ∧ r.tag = tag)
          = some (manualTagRow now db.nextId pid tag) := by
        rw [List.find?_append, hfind]
        rw [List.find?_cons_of_pos _ (by simp [manualTagRow])]
        rfl
      have hfilter : (db.rows ++ [manualTagRow now db.nextId pid tag]).filter
          (fun q => ¬(q.photo_id = pid ∧ q.tag = tag))
          = db.rows := by
        rw [List.filter_append]
        have h1 : db.rows.filter (fun q => ¬(q.photo_id = pid ∧ q.tag = tag))
            = db.rows := by
          rw [List.filter_eq_self]
          intro x hx
          have hx' := hall x hx
          simp only [decide_eq_true_eq] at hx' ⊢
          exact hx'
        have h2 : ([manualTagRow now db.nextId pid tag] : List TagRow).filter
            (fun q => ¬(q.photo_id = pid ∧ q.tag = tag)) = [] := by
          rw [List.filter_eq_nil_iff]
          intro x hx
          have hx' : x = manualTagRow now db.nextId pid tag :=
            List.mem_singleton.mp hx
          rw [hx']
          simp [manualTagRow]
        rw [h1, h2, List.append_nil]
      have houter : add_manual_tag now2
          (⟨db.rows ++ [manualTagRow now db.nextId pid tag],
            db.nextId + 1⟩ : TagDb) pid tag
          = (⟨db.rows ++ [manualTagRow now2 db.nextId pid tag],
              db.nextId + 1⟩ : TagDb) := by
        rw [add_manual_tag]
        dsimp only
        rw [hfind2, hfilter]
        simp only [manualTagRow]
      have hrhs : add_manual_tag now2 db pid tag
          = (⟨db.rows ++ [manualTagRow now2 db.nextId pid tag],
              db.nextId + 1⟩ : TagDb) := by
        rw [add_manual_tag, hfind]
      rw [hinner, houter, hrhs]
    · have hinner : add_manual_tag now db pid tag
          = (⟨(db.rows.filter (fun q => ¬(q.photo_id = pid ∧ q.tag = tag)))
              ++ [manualTagRow now r.id pid tag], db.nextId⟩ : TagDb) := by
        rw [add_manual_tag, hfind]
      have hnone1 : (db.rows.filter (fun q =>
          ¬(q.photo_id = pid ∧ q.tag = tag))).find?
          (fun q => q.photo_id = pid ∧ q.tag = tag) = none := by
        rw [List.find?_eq_none]
        intro x hx
        have hx' := (List.mem_filter.mp hx).2
        simp only [decide_eq_true_eq] at hx' ⊢
        exact hx'
      have hfind2 : ((db.rows.filter (fun q =>
          ¬(q.photo_id = pid ∧ q.tag = tag)))
          ++ [manualTagRow now r.id pid tag]).find?
          (fun q => q.photo_id = pid ∧ q.tag = tag)
          = some (manualTagRow now r.id pid tag) := by
        rw [List.find?_append, hnone1]
        rw [List.find?_cons_of_pos _ (by simp [manualTagRow])]
        rfl
      have hfilter : ((db.rows.filter (fun q =>
          ¬(q.photo_id = pid ∧ q.tag = tag)))
          ++ [manualTagRow now r.id pid tag]).filter
          (fun q => ¬(q.photo_id = pid ∧ q.tag = tag))
          = db.rows.filter (fun q => ¬(q.photo_id = pid ∧ q.tag = tag)) := by
        rw [List.filter_append]
        have h1 : (db.rows.filter (fun q =>
            ¬(q.photo_id = pid ∧ q.tag = tag))).filter
            (fun q => ¬(q.photo_id = pid ∧ q.tag = tag))
            = db.rows.filter (fun q => ¬(q.photo_id = pid ∧ q.tag = tag)) := by
          rw [List.filter_eq_self]
          intro x hx
          exact (List.mem_filter.mp hx).2
        have h2 : ([manualTagRow now r.id pid tag] : List TagRow).filter
            (fun q => ¬(q.photo_id = pid ∧ q.tag = tag)) = [] := by
          rw [List.filter_eq_nil_iff]
          intro x hx
          have hx' : x = manualTagRow now r.id pid tag :=
            List.mem_singleton.mp hx
          rw [hx']
          simp [manualTagRow]
        rw [h1, h2, List.append_nil]
      have houter : add_manual_tag now2
          (⟨(db.rows.filter (fun q => ¬(q.photo_id = pid ∧ q.tag = tag)))
            ++ [manualTagRow now r.id pid tag], db.nextId⟩ : TagDb) pid tag
          = (⟨(db.rows.filter (fun q => ¬(q.photo_id = pid ∧ q.tag = tag)))
              ++ [manualTagRow now2 r.id pid tag], db.nextId⟩ : TagDb) := by
        rw [add_manual_tag]
        dsimp only
        rw [hfind2, hfilter]
        simp only [manualTagRow]
      have hrhs : add_manual_tag now2 db pid tag
          = (⟨(db.rows.filter (fun q => ¬(q.photo_id = pid ∧ q.tag = tag)))
              ++ [manualTagRow now2 r.id pid tag], db.nextId⟩ : TagDb) := by
        rw [add_manual_tag, hfind]
      rw [hinner, houter, hrhs]

/-- Counterexample to claim C3 as stated: a second identical
`add_manual_tag` at a later clock second does not leave the tag table in the
same state — the row's `created_at` is refreshed by the `INSERT OR REPLACE`
(the id is kept and no duplicate row appears). -/
theorem add_manual_tag_second_call_counterexample :
    add_manual_tag 20 (add_manual_tag 10 ⟨[], 1⟩ 7 "keeper") 7 "keeper"
      ≠ add_manual_tag 10 ⟨[], 1⟩ 7 "keeper" ∧
    ((add_manual_tag 20 (add_manual_tag 10 ⟨[], 1⟩ 7 "keeper") 7
        "keeper").rows.map (fun r => (r.id, r.created_at))) = [(1, 20)] ∧
    ((add_manual_tag 10 ⟨[], 1⟩ 7 "keeper").rows.map
        (fun r => (r.id, r.created_at))) = [(1, 10)] := by
  refine ⟨?_, rfl, rfl⟩
  intro h
  have := congrArg (fun d => d.rows.map (fun r => r.created_at)) h
  simp only at this
  exact absurd this (by decide)

/-- Claim C5 (amended): when at least one of rating/picked/rejected is
provided, `batch_update_cull` issues one UPDATE that touches only the
provided columns plus `last_modified` on the listed rows and returns the
number of rows whose id is in the list; an empty id list returns 0 with no
change, and so does a call providing none of the three columns; each updated
row's `last_modified` is set to the current time, which strictly exceeds any
earlier previous value. -/
theorem batch_update_cull_spec (now : ℤ) (db : PhotoDb) (ids : List ℤ)
    (rating : Option (Option ℤ)) (picked : Option Bool)
    (rejected : Option Bool)
    (hprov : ¬(rating = none ∧ picked = none ∧ rejected = none)) :
    (ids = [] → batch_update_cull now db ids rating picked rejected
      = (db, 0)) ∧
    (ids ≠ [] →
      (batch_update_cull now db ids rating picked rejected).2
        = db.rows.countP (fun r => r.id ∈ ids) ∧
      (∀ r ∈ db.rows, r.id ∈ ids →
        ∃ r' ∈ (batch_update_cull now db ids rating picked rejected).1.rows,
          r'.id = r.id ∧ r'.rating = rating.getD r.rating ∧
          r'.picked = picked.getD r.picked ∧
          r'.rejected = rejected.getD r.rejected ∧
          r'.last_modified = some now ∧
          r'.path = r.path ∧ r'.hash = r.hash ∧ r'.file_name = r.file_name ∧
          r'.ext = r.ext ∧ r'.size = r.size ∧ r'.mtime = r.mtime ∧
          r'.width = r.width ∧ r'.height = r.height ∧ r'.make = r.make ∧
          r'.model = r.model ∧ r'.lens = r.lens ∧
          r'.date_taken = r.date_taken ∧ r'.iso = r.iso ∧
          r'.fnumber = r.fnumber ∧ r'.focal_length = r.focal_length ∧
          r'.exposure_time = r.exposure_time ∧
          r'.exposure_comp = r.exposure_comp ∧ r'.gps_lat = r.gps_lat ∧
          r'.gps_lng = r.gps_lng ∧ r'.thumb_path = r.thumb_path ∧
          r'.preview_path = r.preview_path ∧ r'.created_at = r.created_at ∧
          r'.updated_at = r.updated_at ∧
          r'.import_batch_id = r.import_batch_id ∧
          (∀ told : ℤ, r.last_modified = some told → told < now →
            ∃ tnew : ℤ, r'.last_modified = some tnew ∧ told < tnew)) ∧
      (∀ r ∈ db.rows, ¬(r.id ∈ ids) →
        r ∈ (batch_update_cull now db ids rating picked rejected).1.rows)) := by
  constructor
  · intro hnil
    subst hnil
    rfl
  · intro hne
    have hrw : batch_update_cull now db ids rating picked rejected
        = (⟨db.rows.map (fun r =>
            if r.id ∈ ids then cullUpdateRow now rating picked rejected r
            else r), db.nextId⟩,
          db.rows.countP (fun r => r.id ∈ ids)) := by
      rw [batch_update_cull, if_neg (by simpa using hne), if_neg hprov]
    refine ⟨by rw [hrw], ?_, ?_⟩
    · intro r hr hid
      refine ⟨cullUpdateRow now rating picked rejected r, ?_, rfl, rfl, rfl,
        rfl, rfl, rfl, rfl, rfl, rfl, rfl, rfl, rfl, rfl, rfl, rfl, rfl, rfl,
        rfl, rfl, rfl, rfl, rfl, rfl, rfl, rfl, rfl, rfl, rfl, rfl, ?_⟩
      · rw [hrw]
        exact List.mem_map.mpr ⟨r, hr, by rw [if_pos hid]⟩
      · intro told _ htold
        exact ⟨now, rfl, htold⟩
    · intro r hr hid
      rw [hrw]
      exact List.mem_map.mpr ⟨r, hr, by rw [if_neg hid]⟩

/-- Photo row with id 1 and default cull state. -/
def cullRow1 : PhotoRow := { id := 1, path := "/a.jpg" }

/-- Photos table holding only `cullRow1`. -/
def cullDb1 : PhotoDb := { rows := [cullRow1], nextId := 2 }

/-- Counterexample to claim C5 as stated: with a non-empty id list whose id
exists but with none of rating/picked/rejected provided, `batch_update_cull`
returns 0, not the number of listed ids that exist (which is 1). -/
theorem batch_update_cull_counterexample :
    (batch_update_cull 10 cullDb1 [1] none none none).2 = 0 ∧
    cullDb1.rows.countP (fun r => r.id ∈ [1]) = 1 := by
  decide

/-- Witness for claim C5 at the concrete table `cullDb1`: updating the
rating of photo 1 reports one affected row. -/
theorem batch_update_cull_spec_witness :
    (batch_update_cull 10 cullDb1 [1] (some (some 5)) none none).2 = 1 := by
  have h := batch_update_cull_spec 10 cullDb1 [1] (some (some 5)) none none
    (by simp)
  rw [(h.2 (by simp)).1]
  decide

/-! ### Duplicate query

The command wrapper (src/main.rs, `find_duplicates`) resolves the threshold
with `threshold.unwrap_or(8).min(20)` and calls `db::find_duplicates`, whose
implementation is not part of the sources; the grouping below is modelled
from the specification. -/

/-- Photo data of the duplicate query (src/models.rs, `DuplicatePhoto`); the
stored dHash is modelled by its 64-bit pattern. -/
structure DupPhoto where
  id : ℤ
  path : String := ""
  file_name : String := ""
  thumb_path : Option String := none
  width : Option ℤ := none
  height : Option ℤ := none
  size : ℤ := 0
  dhash : ℕ := 0
deriving DecidableEq

/-- Duplicate group (src/models.rs, `DuplicateGroup`). -/
structure DuplicateGroup where
  representative : ℤ
  photos : List DupPhoto
deriving DecidableEq

/-- Pixel area of a photo (missing dimensions count as 0). -/
def pixelArea (p : DupPhoto) : ℤ := p.width.getD 0 * p.height.getD 0

/-- Preference order on group members: strictly larger pixel area, ties
broken by strictly smaller byte size. -/
def beatsRep (q best : DupPhoto) : Prop :=
  pixelArea q > pixelArea best ∨
    (pixelArea q = pixelArea best ∧ q.size < best.size)

instance (q best : DupPhoto) : Decidable (beatsRep q best) :=
  decidable_of_iff (pixelArea q > pixelArea best ∨
    (pixelArea q = pixelArea best ∧ q.size < best.size)) Iff.rfl

/-- Representative selection: fold the preference order over the group. -/
def pickRep (seed : DupPhoto) (l : List DupPhoto) : DupPhoto :=
  l.foldl (fun best q => if beatsRep q best then q else best) seed

/-- Modelled from the spec: grow one duplicate group greedily — a candidate
joins when its dHash is within Hamming distance `t` of every current member,
so every pair of members is within distance `t` by construction
(spec §4.A, duplicate query; `db::find_duplicates` is absent from src/). -/
def groupOf (t : ℕ) (seed : DupPhoto) (cands : List DupPhoto) :
    List DupPhoto :=
  cands.foldl (fun g q =>
    if g.all (fun r => hamming64 q.dhash r.dhash ≤ t) then g ++ [q] else g)
    [seed]

/-- Modelled from the spec: grouping loop with explicit fuel (the fuel is
only a termination device; the list shrinks at every step, so any fuel of at
least the list length gives the same result). -/
def findDupsAux (t : ℕ) : ℕ → List DupPhoto → List DuplicateGroup
  | 0, _ => []
  | _, [] => []
  | fuel + 1, p :: rest =>
    if 2 ≤ (groupOf t p rest).length then
      ⟨(pickRep p (groupOf t p rest)).id, groupOf t p rest⟩
        :: findDupsAux t fuel (rest.filter (fun q => ¬(q ∈ groupOf t p rest)))
    else findDupsAux t fuel rest

/-- Modelled from the spec: group photos whose dHashes are within Hamming
distance `t`, keep only groups of at least two photos, and pick as
representative the member with the largest pixel area, ties broken by
smaller byte size (spec §4.A, duplicate query; `db::find_duplicates` is
absent from src/). -/
def findDuplicateGroups (t : ℕ) (photos : List DupPhoto) :
    List DuplicateGroup :=
  findDupsAux t photos.length photos

/-- Duplicate command (src/main.rs, `find_duplicates`): threshold defaults
to 8 and is capped at 20. -/
def find_duplicates (threshold : Option ℕ) (photos : List DupPhoto) :
    List DuplicateGroup :=
  findDuplicateGroups (min (threshold.getD 8) 20) photos

theorem hamming64_self (a : ℕ) : hamming64 a a = 0 := by
  rw [hamming64, List.countP_eq_zero]
  intro i _
  simp

theorem hamming64_comm (a b : ℕ) : hamming64 a b = hamming64 b a := by
  rw [hamming64, hamming64]
  apply List.countP_congr
  intro i _
  constructor
  · intro h
    simp only [bne_iff_ne] at h ⊢
    exact h.symm
  · intro h
    simp only [bne_iff_ne] at h ⊢
    exact h.symm

theorem not_beatsRep_trans {a b c : DupPhoto}
    (hab : ¬beatsRep a b) (hbc : ¬beatsRep b c) : ¬beatsRep a c := by
  simp only [beatsRep, not_or, not_and, not_lt] at hab hbc ⊢
  obtain ⟨h1, h2⟩ := hab
  obtain ⟨h3, h4⟩ := hbc
  refine ⟨le_trans h1 h3, ?_⟩
  intro heq
  have hab' : pixelArea a = pixelArea b := by omega
  have hbc' : pixelArea b = pixelArea c := by omega
  have := h2 hab'
  have := h4 hbc'
  omega

theorem beats_then_not_beats {a b c : DupPhoto}
    (hba : beatsRep b a) (hbc : ¬beatsRep b c) : ¬beatsRep a c := by
  simp only [beatsRep, not_or, not_and, not_lt] at hbc ⊢
  obtain ⟨h3, h4⟩ := hbc
  rcases hba with h | ⟨heq, hsz⟩
  · refine ⟨by omega, ?_⟩
    intro hac
    omega
  · refine ⟨by omega, ?_⟩
    intro hac
    have hbceq : pixelArea b = pixelArea c := by omega
    have := h4 hbceq
    omega

theorem beatsRep_irrefl (a : DupPhoto) : ¬beatsRep a a := by
  simp [beatsRep]

theorem pickRep_spec (l : List DupPhoto) :
    ∀ seed : DupPhoto, pickRep seed l ∈ seed :: l ∧
      ∀ q ∈ seed :: l, ¬beatsRep q (pickRep seed l) := by
  induction l with
  | nil =>
    intro seed
    exact ⟨List.mem_singleton.mpr rfl, by
      intro q hq
      rw [List.mem_singleton.mp hq]
      exact beatsRep_irrefl _⟩
  | cons p l ih =>
    intro seed
    have hrw : pickRep seed (p :: l)
        = pickRep (if beatsRep p seed then p else seed) l := rfl
    by_cases hb : beatsRep p seed
    · rw [hrw, if_pos hb]
      obtain ⟨hmem, hmax⟩ := ih p
      refine ⟨?_, ?_⟩
      · rcases List.mem_cons.mp hmem with h | h
        · rw [h]
          exact List.mem_cons_of_mem _ (List.mem_cons_self _ _)
        · exact List.mem_cons_of_mem _ (List.mem_cons_of_mem _ h)
      · intro q hq
        rcases List.mem_cons.mp hq with h | h
        · rw [h]
          exact beats_then_not_beats hb (hmax p (List.mem_cons_self _ _))
        · exact hmax q h
    · rw [hrw, if_neg hb]
      obtain ⟨hmem, hmax⟩ := ih seed
      refine ⟨?_, ?_⟩
      · rcases List.mem_cons.mp hmem with h | h
        · rw [h]
          exact List.mem_cons_self _ _
        · exact List.mem_cons_of_mem _ (List.mem_cons_of_mem _ h)
      · intro q hq
        rcases List.mem_cons.mp hq with h | h
        · rw [h]
          exact hmax seed (List.mem_cons_self _ _)
        · rcases List.mem_cons.mp h with h' | h'
          · rw [h']
            exact not_beatsRep_trans hb (hmax seed (List.mem_cons_self _ _))
          · exact hmax q (List.mem_cons_of_mem _ h')

theorem groupOf_foldl_extends (t : ℕ) (cands : List DupPhoto) :
    ∀ g : List DupPhoto, ∃ suf,
      cands.foldl (fun g q =>
        if g.all (fun r => hamming64 q.dhash r.dhash ≤ t) then g ++ [q] else g)
        g = g ++ suf := by
  induction cands with
  | nil => intro g; exact ⟨[], by simp⟩
  | cons c cands ih =>
    intro g
    rw [List.foldl_cons]
    by_cases hall : g.all (fun r => hamming64 c.dhash r.dhash ≤ t)
    · rw [if_pos hall]
      obtain ⟨suf, hsuf⟩ := ih (g ++ [c])
      exact ⟨c :: suf, by rw [hsuf]; simp⟩
    · rw [if_neg hall]
      exact ih g

theorem groupOf_seed_mem (t : ℕ) (seed : DupPhoto) (cands : List DupPhoto) :
    seed ∈ groupOf t seed cands := by
  obtain ⟨suf, hsuf⟩ := groupOf_foldl_extends t cands [seed]
  rw [groupOf, hsuf]
  exact List.mem_append_left _ (List.mem_singleton.mpr rfl)

theorem groupOf_foldl_pairs (t : ℕ) (cands : List DupPhoto) :
    ∀ g : List DupPhoto,
      (∀ p ∈ g, ∀ q ∈ g, hamming64 p.dhash q.dhash ≤ t) →
      ∀ p ∈ cands.foldl (fun g q =>
          if g.all (fun r => hamming64 q.dhash r.dhash ≤ t) then g ++ [q]
          else g) g,
        ∀ q ∈ cands.foldl (fun g q =>
          if g.all (fun r => hamming64 q.dhash r.dhash ≤ t) then g ++ [q]
          else g) g,
        hamming64 p.dhash q.dhash ≤ t := by
  induction cands with
  | nil => intro g hg; simpa using hg
  | cons c cands ih =>
    intro g hg
    rw [List.foldl_cons]
    by_cases hall : g.all (fun r => hamming64 c.dhash r.dhash ≤ t)
    · rw [if_pos hall]
      apply ih (g ++ [c])
      intro p hp q hq
      have hallp : ∀ r ∈ g, hamming64 c.dhash r.dhash ≤ t := by
        intro r hr
        have := List.all_eq_true.mp hall r hr
        simpa using this
      rcases List.mem_append.mp hp with hp' | hp' <;>
        rcases List.mem_append.mp hq with hq' | hq'
      · exact hg p hp' q hq'
      · rw [List.mem_singleton.mp hq', hamming64_comm]
        exact hallp p hp'
      · rw [List.mem_singleton.mp hp']
        exact hallp q hq'
      · rw [List.mem_singleton.mp hp', List.mem_singleton.mp hq',
          hamming64_self]
        exact Nat.zero_le t
    · rw [if_neg hall]
      exact ih g hg

theorem groupOf_pairs (t : ℕ) (seed : DupPhoto) (cands : List DupPhoto) :
    ∀ p ∈ groupOf t seed cands, ∀ q ∈ groupOf t seed cands,
      hamming64 p.dhash q.dhash ≤ t := by
  rw [groupOf]
  apply groupOf_foldl_pairs t cands [seed]
  intro p hp q hq
  rw [List.mem_singleton.mp hp, List.mem_singleton.mp hq, hamming64_self]
  exact Nat.zero_le t

theorem findDupsAux_spec (t : ℕ) :
    ∀ fuel : ℕ, ∀ photos : List DupPhoto,
      ∀ grp ∈ findDupsAux t fuel photos,
        2 ≤ grp.photos.length ∧
        (∀ p ∈ grp.photos, ∀ q ∈ grp.photos,
          hamming64 p.dhash q.dhash ≤ t) ∧
        (∃ rep ∈ grp.photos, grp.representative = rep.id ∧
          ∀ q ∈ grp.photos, ¬beatsRep q rep) := by
  intro fuel
  induction fuel with
  | zero =>
    intro photos grp hgrp
    cases photos with
    | nil => cases hgrp
    | cons p rest => cases hgrp
  | succ m ih =>
    intro photos grp hgrp
    cases photos with
    | nil => cases hgrp
    | cons p rest =>
      rw [findDupsAux] at hgrp
      by_cases h2 : 2 ≤ (groupOf t p rest).length
      · rw [if_pos h2] at hgrp
        rcases List.mem_cons.mp hgrp with heq | hmem
        · subst heq
          refine ⟨h2, groupOf_pairs t p rest, ?_⟩
          obtain ⟨hmem', hmax⟩ := pickRep_spec (groupOf t p rest) p
          refine ⟨pickRep p (groupOf t p rest), ?_, rfl, ?_⟩
          · rcases List.mem_cons.mp hmem' with h | h
            · rw [h]
              exact groupOf_seed_mem t p rest
            · exact h
          · intro q hq
            exact hmax q (List.mem_cons_of_mem _ hq)
        · exact ih _ grp hmem
      · rw [if_neg h2] at hgrp
        exact ih rest grp hgrp

/-- Claim C4: `find_duplicates` (threshold defaulting to 8, capped at 20)
returns only groups of at least two photos in which every pair of members
has dHash Hamming distance at most the effective threshold — hence at most
`t` when a threshold `t` is given and at most 8 when none is — and each
group's representative is the member with the largest pixel area, ties
broken by smaller byte size. -/
theorem find_duplicates_groups_spec (threshold : Option ℕ)
    (photos : List DupPhoto) :
    ∀ grp ∈ find_duplicates threshold photos,
      2 ≤ grp.photos.length ∧
      (∀ p ∈ grp.photos, ∀ q ∈ grp.photos,
        hamming64 p.dhash q.dhash ≤ min (threshold.getD 8) 20) ∧
      (∀ t : ℕ, threshold = some t → ∀ p ∈ grp.photos, ∀ q ∈ grp.photos,
        hamming64 p.dhash q.dhash ≤ t) ∧
      (threshold = none → ∀ p ∈ grp.photos, ∀ q ∈ grp.photos,
        hamming64 p.dhash q.dhash ≤ 8) ∧
      (∃ rep ∈ grp.photos, grp.representative = rep.id ∧
        ∀ q ∈ grp.photos, ¬beatsRep q rep) := by
  intro grp hgrp
  have h := findDupsAux_spec (min (threshold.getD 8) 20) photos.length photos
    grp hgrp
  refine ⟨h.1, h.2.1, ?_, ?_, h.2.2⟩
  · intro t ht p hp q hq
    have := h.2.1 p hp q hq
    rw [ht] at this
    have hle : min ((some t).getD 8) 20 ≤ t := by
      simp only [Option.getD_some]
      exact min_le_left t 20
    omega
  · intro ht p hp q hq
    have := h.2.1 p hp q hq
    rw [ht] at this
    simpa using this

/-- First duplicate photo: dHash 5, area 5000, 10 bytes. -/
def dupA : DupPhoto :=
  { id := 1, dhash := 5, width := some 100, height := some 50, size := 10 }

/-- Second duplicate photo: same dHash and area, larger file. -/
def dupB : DupPhoto :=
  { id := 2, dhash := 5, width := some 100, height := some 50, size := 20 }

/-- Witness for claim C4 at two concrete photos with identical dHashes: the
single returned group carries a representative that no member beats. -/
theorem find_duplicates_groups_spec_witness :
    ∃ rep ∈ (⟨1, [dupA, dupB]⟩ : DuplicateGroup).photos,
      (⟨1, [dupA, dupB]⟩ : DuplicateGroup).representative = rep.id ∧
      ∀ q ∈ (⟨1, [dupA, dupB]⟩ : DuplicateGroup).photos, ¬beatsRep q rep := by
  have h := find_duplicates_groups_spec (some 8) [dupA, dupB]
    ⟨1, [dupA, dupB]⟩ (by decide)
  exact h.2.2.2.2

/-! ### Progress tracker and per-file cancellation (src/jobs.rs)

Every stage worker, after dequeuing an item, runs
`if is_canceled(&path, &cancel, &cancel_files) { tracker.mark_canceled();
continue; }` and otherwise processes the item, counting a completion or an
error.  `emit_progress` reports the tracker's `canceled` flag in the
`import-progress` event.  The flag is a write-once boolean: nothing ever
clears it during a job. -/

/-- Cancellation test (src/jobs.rs, `is_canceled`): the global flag or
membership of the path in the per-path cancel set. -/
def is_canceled (path : String) (cancel : Bool) (cancelFiles : List String) :
    Bool :=
  cancel || cancelFiles.contains path

/-- Outcome of processing one item that is not dropped; stands for the
environment (filesystem, extractor, database) behavior. -/
inductive ItemOutcome where
  | success
  | failure
deriving DecidableEq

/-- Tracker state relevant to cancellation (src/jobs.rs, `ProgressState`):
the job-level canceled flag and the stage's completed/error counters. -/
structure TrackerState where
  canceled : Bool
  completed : ℕ
  errors : ℕ
deriving DecidableEq

/-- Marking the job canceled (src/jobs.rs, `mark_canceled`). -/
def mark_canceled (st : TrackerState) : TrackerState :=
  { st with canceled := true }

/-- One dequeued item at a stage worker (src/jobs.rs, `run_exif_stage` and
the other stage loops): a canceled item is dropped after `mark_canceled`;
otherwise the stage records a completion or an error. -/
def stageStep (cancel : Bool) (cancelFiles : List String) (st : TrackerState)
    (item : String × ItemOutcome) : TrackerState :=
  if is_canceled item.1 cancel cancelFiles then mark_canceled st
  else
    match item.2 with
    | ItemOutcome.success => { st with completed := st.completed + 1 }
    | ItemOutcome.failure => { st with errors := st.errors + 1 }

/-- A stage worker draining a sequence of items. -/
def runStage (cancel : Bool) (cancelFiles : List String) (st : TrackerState)
    (items : List (String × ItemOutcome)) : TrackerState :=
  items.foldl (stageStep cancel cancelFiles) st

/-- Canceled field of the emitted `import-progress` event (src/jobs.rs,
`emit_progress` reads `state.canceled`). -/
def emit_canceled (st : TrackerState) : Bool := st.canceled

theorem runStage_canceled_mono (cancel : Bool) (cancelFiles : List String) :
    ∀ items : List (String × ItemOutcome), ∀ st : TrackerState,
      st.canceled = true →
      (runStage cancel cancelFiles st items).canceled = true := by
  intro items
  induction items with
  | nil => intro st h; exact h
  | cons it items ih =>
    intro st h
    rw [runStage, List.foldl_cons]
    apply ih
    rw [stageStep]
    by_cases hc : is_canceled it.1 cancel cancelFiles
    · rw [if_pos hc]
      rfl
    · rw [if_neg hc]
      cases it.2 <;> exact h

theorem runStage_canceled_of_drop (cancel : Bool) (cancelFiles : List String) :
    ∀ items : List (String × ItemOutcome), ∀ st : TrackerState,
      (∃ item ∈ items, item.1 ∈ cancelFiles) →
      (runStage cancel cancelFiles st items).canceled = true := by
  intro items
  induction items with
  | nil => intro st h; obtain ⟨item, hmem, _⟩ := h; cases hmem
  | cons it items ih =>
    intro st h
    obtain ⟨item, hmem, hpath⟩ := h
    rcases List.mem_cons.mp hmem with heq | hmem'
    · subst heq
      rw [runStage, List.foldl_cons]
      have hc : is_canceled item.1 cancel cancelFiles = true := by
        rw [is_canceled, Bool.or_eq_true]
        right
        exact List.elem_eq_true_of_mem hpath
      rw [stageStep, if_pos hc]
      exact runStage_canceled_mono cancel cancelFiles items _ rfl
    · rw [runStage, List.foldl_cons]
      exact ih _ ⟨item, hmem', hpath⟩

/-- Claim C10: if any stage worker drops an item because its path is in the
per-path cancel set, the tracker's job-level canceled flag becomes true and
remains true through any further processing, so the final `import-progress`
event reports `canceled = true` — even when the global cancel flag was never
set and every other file completed normally. -/
theorem per_path_cancel_reports_canceled (cancelFiles : List String)
    (st : TrackerState) (items more : List (String × ItemOutcome))
    (_hstart : st.canceled = false)
    (hdrop : ∃ item ∈ items, item.1 ∈ cancelFiles) :
    emit_canceled (runStage false cancelFiles st items) = true ∧
    emit_canceled
      (runStage false cancelFiles (runStage false cancelFiles st items)
        more) = true := by
  have h1 : (runStage false cancelFiles st items).canceled = true :=
    runStage_canceled_of_drop false cancelFiles items st hdrop
  exact ⟨h1, runStage_canceled_mono false cancelFiles more _ h1⟩

/-- Witness for claim C10: two items, global cancel never set, "b.jpg" in
the per-path cancel set and "a.jpg" completing normally — the final event
reports canceled. -/
theorem per_path_cancel_reports_canceled_witness :
    emit_canceled (runStage false ["b.jpg"] ⟨false, 0, 0⟩
      [("a.jpg", ItemOutcome.success), ("b.jpg", ItemOutcome.success)])
      = true ∧
    emit_canceled (runStage false ["b.jpg"]
      (runStage false ["b.jpg"] ⟨false, 0, 0⟩
        [("a.jpg", ItemOutcome.success), ("b.jpg", ItemOutcome.success)])
      [("c.jpg", ItemOutcome.success)]) = true :=
  per_path_cancel_reports_canceled ["b.jpg"] ⟨false, 0, 0⟩
    [("a.jpg", ItemOutcome.success), ("b.jpg", ItemOutcome.success)]
    [("c.jpg", ItemOutcome.success)] rfl (by decide)

end PhotoTag
